import Mathlib

set_option maxRecDepth 100000

/-!
Verification of the DB2-DDL splitter and the DB2-to-Snowflake transpiler.

The development shallowly embeds the two scripts of the repository
(`01_split_db2_ddl.py`, `02_convert_to_snowflake.py`) over `List Char`.
Python strings become `List Char`; the regular expressions used by the
scripts are embedded as explicit scanners with Python's leftmost,
greedy-with-backtracking semantics; the issue log written by `log_issue`
is modelled as a returned list of `Diag` records.  Character classes
(`\w`, `\s`) are modelled over ASCII, which covers every input the
scripts are specified on.
-/

/-- Characters treated as whitespace by Python's `str.strip`, `str.split`
and the regex class `\s` (ASCII fragment). -/
def pyWS (c : Char) : Bool :=
  c = ' ' || c = '\t' || c = '\n' || c = '\r' || c = Char.ofNat 11 || c = Char.ofNat 12

/-- Characters matched by the regex class `\w` (ASCII fragment):
letters, digits and underscore. -/
def isWordChar (c : Char) : Bool :=
  c.isAlphanum || c = '_'

/-- Coercion from a string literal to the character-list representation
used throughout the embedding. -/
def strL (s : String) : List Char := s.data

/-- Uppercasing of a character list, modelling Python's `str.upper` on
ASCII input. -/
def upperL (l : List Char) : List Char := l.map Char.toUpper

/-- Python's `str.lstrip()`. -/
def pyLStrip (l : List Char) : List Char := l.dropWhile pyWS

/-- Python's `str.rstrip()`. -/
def pyRStrip (l : List Char) : List Char := (l.reverse.dropWhile pyWS).reverse

/-- Python's `str.strip()`. -/
def pyStrip (l : List Char) : List Char := pyRStrip (pyLStrip l)

/-- Index of the first occurrence of `pat` in `s`, modelling Python's
`str.find` (with `none` for `-1`).  The empty pattern matches at 0. -/
def findSub (s pat : List Char) : Option Nat :=
  if pat.isPrefixOf s then some 0
  else
    match s with
    | [] => none
    | _ :: t => (findSub t pat).map (· + 1)

/-- Containment test for substrings, modelling Python's `in` on strings. -/
def hasSub (s pat : List Char) : Bool := (findSub s pat).isSome

/-- Fuel-driven worker for `replaceAll`. -/
def replaceAllAux (pat rep : List Char) : Nat → List Char → List Char
  | 0, s => s
  | _ + 1, [] => []
  | fuel + 1, c :: rest =>
    if pat.isPrefixOf (c :: rest) ∧ pat ≠ [] then
      rep ++ replaceAllAux pat rep fuel ((c :: rest).drop pat.length)
    else
      c :: replaceAllAux pat rep fuel rest

/-- Python's `str.replace`: replace every non-overlapping occurrence of
`pat` by `rep`, scanning left to right. -/
def replaceAll (s pat rep : List Char) : List Char :=
  replaceAllAux pat rep s.length s

/-- Split on newline characters, modelling Python's `str.split('\n')`
(the result is never empty and keeps empty segments). -/
def splitNl : List Char → List (List Char)
  | [] => [[]]
  | c :: rest =>
    if c = '\n' then [] :: splitNl rest
    else
      match splitNl rest with
      | l :: ls => (c :: l) :: ls
      | [] => [[c]]

/-- Join with newline characters, modelling Python's `'\n'.join`. -/
def joinNl : List (List Char) → List Char
  | [] => []
  | [l] => l
  | l :: l' :: ls => l ++ '\n' :: joinNl (l' :: ls)

/-- Join with a single space, modelling Python's `' '.join`. -/
def joinSpace : List (List Char) → List Char
  | [] => []
  | [l] => l
  | l :: l' :: ls => l ++ ' ' :: joinSpace (l' :: ls)

/-- Join with a comma and a space, modelling Python's `', '.join`. -/
def joinCommaSpace : List (List Char) → List Char
  | [] => []
  | [l] => l
  | l :: l' :: ls => l ++ ',' :: ' ' :: joinCommaSpace (l' :: ls)

/-- Split on a single character, modelling Python's `str.split(',')`
(keeps empty segments, never returns an empty list). -/
def splitOnChar (sep : Char) : List Char → List (List Char)
  | [] => [[]]
  | c :: rest =>
    if c = sep then [] :: splitOnChar sep rest
    else
      match splitOnChar sep rest with
      | l :: ls => (c :: l) :: ls
      | [] => [[c]]

/-- Fuel-driven worker for `splitWS`. -/
def splitWSAux : Nat → List Char → List (List Char)
  | 0, _ => []
  | fuel + 1, l =>
    let l' := l.dropWhile pyWS
    match l' with
    | [] => []
    | _ :: _ =>
      l'.takeWhile (fun c => !pyWS c) :: splitWSAux fuel (l'.dropWhile (fun c => !pyWS c))

/-- Python's `str.split()` with no argument: split on whitespace runs,
dropping empty tokens. -/
def splitWS (l : List Char) : List (List Char) := splitWSAux l.length l

/-- Python slice `s[a:b]` for non-negative bounds (clamped, empty when
`b ≤ a`). -/
def sliceL (l : List Char) (a b : Nat) : List Char := (l.drop a).take (b - a)

/-- Count occurrences of one character, modelling `str.count` for a
single-character argument. -/
def countCh (c : Char) (l : List Char) : Nat := (l.filter (· = c)).length

/-- Net parenthesis balance of a line: `line.count('(') - line.count(')')`. -/
def parenBal (l : List Char) : Int := (countCh '(' l : Int) - (countCh ')' l : Int)

/-- Python's `line.endswith(';')`. -/
def endsSemi (l : List Char) : Bool := l.getLast? = some ';'

/-! ### Regex scanners

Each regular expression used by the scripts is embedded as an explicit
scanner.  `consume...` functions attempt a match at the start of their
input and return the unconsumed remainder; `searchAux` turns such a
matcher into Python's `re.search` by trying every start position from
the left. -/

/-- Consume a literal, case-insensitively (the literals below are given
in uppercase), returning the remainder on success. -/
def consumeLitCI : List Char → List Char → Option (List Char)
  | [], s => some s
  | _ :: _, [] => none
  | c :: cs, x :: xs => if x.toUpper = c.toUpper then consumeLitCI cs xs else none

/-- Consume `\s+`: at least one whitespace character, maximal run. -/
def consumeWS1 : List Char → Option (List Char)
  | [] => none
  | c :: rest => if pyWS c then some (rest.dropWhile pyWS) else none

/-- Consume `(\w+)`: a maximal nonempty word-character run, returning
the captured run and the remainder. -/
def consumeWord1 (s : List Char) : Option (List Char × List Char) :=
  match s with
  | [] => none
  | c :: _ =>
    if isWordChar c then some (s.takeWhile isWordChar, s.dropWhile isWordChar) else none

/-- Leftmost-match driver: try the matcher at every position from the
left, as `re.search` does. -/
def searchAux {α : Type} (p : List Char → Option α) : List Char → Option α
  | [] => p []
  | c :: rest =>
    match p (c :: rest) with
    | some r => some r
    | none => searchAux p rest

/-- Anchored match for `CREATE\s+TABLE\s+(\w+)`, returning the captured
identifier.  The optional `(?:\.\w+)?` tail of the segmenter's pattern
cannot affect match success, so this also decides that pattern. -/
def parseCreateSingle (s : List Char) : Option (List Char) := do
  let r1 ← consumeLitCI (strL "CREATE") s
  let r2 ← consumeWS1 r1
  let r3 ← consumeLitCI (strL "TABLE") r2
  let r4 ← consumeWS1 r3
  let (w, _) ← consumeWord1 r4
  pure w

/-- Anchored match for `CREATE\s+TABLE\s+(\w+)\.(\w+)`, returning both
captured identifiers. -/
def parseCreateQual (s : List Char) : Option (List Char × List Char) := do
  let r1 ← consumeLitCI (strL "CREATE") s
  let r2 ← consumeWS1 r1
  let r3 ← consumeLitCI (strL "TABLE") r2
  let r4 ← consumeWS1 r3
  let (w1, r5) ← consumeWord1 r4
  match r5 with
  | '.' :: r6 => do
    let (w2, _) ← consumeWord1 r6
    pure (w1, w2)
  | _ => none

/-- The segmenter's `re.match(r'CREATE\s+TABLE\s+\w+(?:\.\w+)?', line)`
as a boolean. -/
def matchCreate (line : List Char) : Bool := (parseCreateSingle line).isSome

/-- Search form `re.search(r'CREATE\s+TABLE\s+(\w+)', s)`. -/
def searchSingle (s : List Char) : Option (List Char) := searchAux parseCreateSingle s

/-- Search form `re.search(r'CREATE\s+TABLE\s+(\w+)\.(\w+)', s)`. -/
def searchQualified (s : List Char) : Option (List Char × List Char) :=
  searchAux parseCreateQual s

/-- Anchored match for `WITH\s+DEFAULT\s+([^,\s]+(?:\s+[^,\s]+)*)`,
returning the length of the whole match (group 0).  The greedy token
loop keeps consuming `\s+` followed by a nonempty run of characters
that are neither commas nor whitespace. -/
def parseWithDefaultLen (s : List Char) : Option Nat := do
  let r1 ← consumeLitCI (strL "WITH") s
  let r2 ← consumeWS1 r1
  let r3 ← consumeLitCI (strL "DEFAULT") r2
  let r4 ← consumeWS1 r3
  let tok := r4.takeWhile (fun c => !pyWS c && c ≠ ',')
  if tok = [] then none
  else
    let rest := r4.drop tok.length
    some (s.length - (wdLoop rest.length rest).length)
where
  /-- Greedy `(?:\s+[^,\s]+)*` tail: returns the remainder after the
  last token it can absorb. -/
  wdLoop : Nat → List Char → List Char
    | 0, r => r
    | fuel + 1, r =>
      let w := r.takeWhile pyWS
      if w = [] then r
      else
        let r' := r.drop w.length
        let tok := r'.takeWhile (fun c => !pyWS c && c ≠ ',')
        if tok = [] then r else wdLoop fuel (r'.drop tok.length)

/-- Search form of the default-capture regex, returning group 0 (the
matched text). -/
def searchWithDefault (s : List Char) : Option (List Char) :=
  searchAux (fun t => (parseWithDefaultLen t).map fun n => t.take n) s

/-- Word-boundary test used by `\b` when the pattern character at the
boundary is a word character: the previous character (if any) must not
be a word character. -/
def bdryBefore (prev : Option Char) : Bool :=
  match prev with
  | none => true
  | some c => !isWordChar c

/-- Anchored match for `\bCURRENT\s+W2\b` (with `prev` the character just
before the match position), returning the consumed length. -/
def parsePhraseLen (w2 : List Char) (prev : Option Char) (s : List Char) : Option Nat :=
  if bdryBefore prev then
    match consumeLitCI (strL "CURRENT") s with
    | none => none
    | some r1 =>
      match consumeWS1 r1 with
      | none => none
      | some r2 =>
        match consumeLitCI w2 r2 with
        | none => none
        | some r3 =>
          match r3 with
          | [] => some (s.length - r3.length)
          | c :: _ => if isWordChar c then none else some (s.length - r3.length)
  else none

/-- Fuel-driven worker for `subPhrase`: Python's `re.sub` over
`\bCURRENT\s+W2\b`, scanning left to right, resuming after each match
(boundaries are judged on the original text, so `prev` is taken from
the matched span, whose last character is a word character). -/
def subPhraseAux (w2 rep : List Char) : Nat → Option Char → List Char → List Char
  | 0, _, s => s
  | _ + 1, _, [] => []
  | fuel + 1, prev, c :: rest =>
    match parsePhraseLen w2 prev (c :: rest) with
    | some n => rep ++ subPhraseAux w2 rep fuel (some 'T') ((c :: rest).drop n)
    | none => c :: subPhraseAux w2 rep fuel (some c) rest

/-- Python's `re.sub(r'\bCURRENT\s+W2\b', rep, s, flags=re.IGNORECASE)`. -/
def subPhrase (w2 rep s : List Char) : List Char :=
  subPhraseAux w2 rep s.length none s

/-- Anchored match for `\bUSER\b`, returning the consumed length. -/
def parseUserLen (prev : Option Char) (s : List Char) : Option Nat :=
  if bdryBefore prev then
    match consumeLitCI (strL "USER") s with
    | none => none
    | some r =>
      match r with
      | [] => some (s.length - r.length)
      | c :: _ => if isWordChar c then none else some (s.length - r.length)
  else none

/-- Fuel-driven worker for `searchUser`. -/
def searchUserAux : Nat → Option Char → List Char → Bool
  | 0, _, _ => false
  | _ + 1, prev, [] => (parseUserLen prev []).isSome
  | fuel + 1, prev, c :: rest =>
    (parseUserLen prev (c :: rest)).isSome || searchUserAux fuel (some c) rest

/-- Python's `re.search(r'\bUSER\b', s, re.IGNORECASE)` as a boolean. -/
def searchUser (s : List Char) : Bool := searchUserAux (s.length + 1) none s

/-- Fuel-driven worker for `subUser`. -/
def subUserAux (rep : List Char) : Nat → Option Char → List Char → List Char
  | 0, _, s => s
  | _ + 1, _, [] => []
  | fuel + 1, prev, c :: rest =>
    match parseUserLen prev (c :: rest) with
    | some n => rep ++ subUserAux rep fuel (some 'R') ((c :: rest).drop n)
    | none => c :: subUserAux rep fuel (some c) rest

/-- Python's `re.sub(r'\bUSER\b', rep, s, flags=re.IGNORECASE)`. -/
def subUser (rep s : List Char) : List Char := subUserAux rep s.length none s

/-- Tail matcher `\s+PRIMARY\s+KEY` of the inline primary-key pattern. -/
def tailPrimaryKey (s : List Char) : Bool :=
  match consumeWS1 s with
  | none => false
  | some r1 =>
    match consumeLitCI (strL "PRIMARY") r1 with
    | none => false
    | some r2 =>
      match consumeWS1 r2 with
      | none => false
      | some r3 => (consumeLitCI (strL "KEY") r3).isSome

/-- Anchored match for `(\w+)\s+[^,\n]+\s+PRIMARY\s+KEY`, returning the
captured first word.  The two inner quantifiers overlap on blanks, so
the scanner searches over all the split points Python's backtracking
would try; the captured group is the maximal word run either way. -/
def matchInlineAt (s : List Char) : Option (List Char) :=
  match consumeWord1 s with
  | none => none
  | some (w, r1) =>
    let wsr := r1.takeWhile pyWS
    if wsr = [] then none
    else
      let ok := (List.range wsr.length).any fun k =>
        let r2 := r1.drop (k + 1)
        let run := r2.takeWhile (fun c => c ≠ ',' && c ≠ '\n')
        (List.range run.length).any fun j => tailPrimaryKey (r2.drop (j + 1))
      if ok then some w else none

/-- Search form of the inline primary-key pattern (group 1). -/
def searchInline (s : List Char) : Option (List Char) := searchAux matchInlineAt s

/-- Anchored match for `PRIMARY\s+KEY\s*\(([^)]+)\)`, returning the
captured column-list text. -/
def parseTablePK (s : List Char) : Option (List Char) := do
  let r1 ← consumeLitCI (strL "PRIMARY") s
  let r2 ← consumeWS1 r1
  let r3 ← consumeLitCI (strL "KEY") r2
  let r4 := r3.dropWhile pyWS
  match r4 with
  | '(' :: r5 =>
    let run := r5.takeWhile (· ≠ ')')
    if run = [] then none
    else
      match r5.drop run.length with
      | ')' :: _ => some run
      | _ => none
  | _ => none

/-- Search form of the table-level primary-key pattern (group 1). -/
def searchTablePK (s : List Char) : Option (List Char) := searchAux parseTablePK s

/-! ### Script A: `01_split_db2_ddl.py` -/

/-- Fuel-driven worker for `removeBlock`: Python's
`re.sub(r'/\*.*?\*/', '', content, flags=re.DOTALL)`.  At a `/*` opener
the nearest following `*/` closes the (non-greedy) match; an unclosed
opener is left in place. -/
def removeBlockAux : Nat → List Char → List Char
  | 0, s => s
  | _ + 1, [] => []
  | fuel + 1, c :: rest =>
    if c = '/' ∧ rest.headD ' ' = '*' then
      match findSub rest.tail (strL "*/") with
      | some j => removeBlockAux fuel (rest.tail.drop (j + 2))
      | none => c :: removeBlockAux fuel rest
    else c :: removeBlockAux fuel rest

/-- Block-comment removal pass of `strip_comments`. -/
def removeBlock (s : List Char) : List Char := removeBlockAux s.length s

/-- Line-comment pass of `strip_comments` on a single line: drop
everything from the first `--` onward and right-strip what precedes it
(Python appends `before_comment` when nonempty and `''` otherwise,
which is the same value in both cases). -/
def cleanLine (l : List Char) : List Char :=
  match findSub l (strL "--") with
  | some p => pyRStrip (l.take p)
  | none => l

/-- The script's `strip_comments`: remove `/* ... */` block comments,
then `--` line comments, preserving the line structure. -/
def strip_comments (content : List Char) : List Char :=
  joinNl ((splitNl (removeBlock content)).map cleanLine)

/-- Mutable state of the segmenter's loop in
`extract_create_table_statements`. -/
structure SegState where
  stmts : List (List Char)
  cur : List (List Char)
  depth : Int
  inCT : Bool

/-- One iteration of the segmenter's `for line in lines` loop. -/
def stepLine (st : SegState) (raw : List Char) : SegState :=
  let line := pyStrip raw
  if line = [] then st
  else if matchCreate line then
    let stmts := if st.cur ≠ [] ∧ st.inCT then st.stmts ++ [joinNl st.cur] else st.stmts
    ⟨stmts, [line], parenBal line, true⟩
  else if st.inCT then
    let cur := st.cur ++ [line]
    let depth := st.depth + parenBal line
    if depth ≤ 0 ∧ endsSemi line then ⟨st.stmts ++ [joinNl cur], [], 0, false⟩
    else ⟨st.stmts, cur, depth, true⟩
  else st

/-- The script's `extract_create_table_statements`: line-oriented scan
with parenthesis-depth tracking, flushing any still-open statement at
end of input. -/
def extract_create_table_statements (content : List Char) : List (List Char) :=
  let st := (splitNl content).foldl stepLine ⟨[], [], 0, false⟩
  if st.cur ≠ [] ∧ st.inCT then st.stmts ++ [joinNl st.cur] else st.stmts

/-- The script's `extract_schema_table_name`: search the statement for
`CREATE TABLE schema.table`, then for `CREATE TABLE table` with schema
`"DEFAULT"`; `none` models the `(None, None)` failure return. -/
def extract_schema_table_name (stmt : List Char) : Option (List Char × List Char) :=
  match searchQualified stmt with
  | some (s, t) => some (s, t)
  | none =>
    match searchSingle stmt with
    | some t => some (strL "DEFAULT", t)
    | none => none

/-- Output filename chosen by `process_input_file` for a statement:
`SCHEMA__TABLE.sql` (none when identity extraction fails and the
statement is skipped). -/
def outFileName (stmt : List Char) : Option (List Char) :=
  (extract_schema_table_name stmt).map fun p =>
    p.1 ++ strL "__" ++ p.2 ++ strL ".sql"

/-! ### Script B: `02_convert_to_snowflake.py` -/

/-- One record of the issues log written by `log_issue`. -/
structure Diag where
  table : List Char
  column : List Char
  issue : List Char
  snippet : List Char
deriving DecidableEq

/-- The script's `log_issue`, with the file append modelled as a
returned record; the snippet is truncated to 80 characters. -/
def mkDiag (table column issue snippet : List Char) : Diag :=
  ⟨table, column, issue, snippet.take 80⟩

/-- Rule table of `convert_data_type`, applied to the normalized type
string (uppercased, stripped, `FOR SBCS DATA` removed): the first
matching rule wins. -/
def convertTypeRules (t tableName columnName : List Char) : List Char × List Diag :=
  if hasSub t (strL "FOR BIT DATA") then
    (strL "BINARY", [mkDiag tableName columnName (strL "mapped to BINARY from FOR BIT DATA") t])
  else if (strL "DECIMAL").isPrefixOf t || (strL "NUMERIC").isPrefixOf t then
    (replaceAll (replaceAll t (strL "DECIMAL") (strL "NUMBER")) (strL "NUMERIC") (strL "NUMBER"), [])
  else if t = strL "SMALLINT" || t = strL "INTEGER" || t = strL "BIGINT" then (t, [])
  else if t = strL "REAL" || t = strL "DOUBLE" || t = strL "DECFLOAT" then (strL "FLOAT", [])
  else if (strL "CHAR").isPrefixOf t || (strL "VARCHAR").isPrefixOf t then (t, [])
  else if (strL "GRAPHIC").isPrefixOf t || (strL "VARGRAPHIC").isPrefixOf t then
    (replaceAll (replaceAll t (strL "GRAPHIC") (strL "VARCHAR")) (strL "VARGRAPHIC") (strL "VARCHAR"),
     [mkDiag tableName columnName (strL "mapped (VAR)GRAPHIC to VARCHAR") t])
  else if (strL "CLOB").isPrefixOf t then
    (strL "VARCHAR", [mkDiag tableName columnName (strL "CLOB mapped to VARCHAR (possible size loss)") t])
  else if (strL "BLOB").isPrefixOf t then (strL "BINARY", [])
  else if t = strL "XML" then
    (strL "VARIANT", [mkDiag tableName columnName (strL "XML mapped to VARIANT") t])
  else if t = strL "DATE" then (strL "DATE", [])
  else if t = strL "TIME" then (strL "TIME", [])
  else if t = strL "TIMESTAMP WITH TIME ZONE" then (strL "TIMESTAMP_TZ", [])
  else if t = strL "TIMESTAMP" then (strL "TIMESTAMP_NTZ", [])
  else (t, [])

/-- The script's `convert_data_type`: normalize (uppercase, strip,
remove `FOR SBCS DATA`), then apply the rule table.  Diagnostics are
returned instead of appended to the issues file. -/
def convert_data_type (db2Type tableName columnName : List Char) : List Char × List Diag :=
  let t0 := upperL (pyStrip db2Type)
  let t := if hasSub t0 (strL "FOR SBCS DATA")
           then pyStrip (replaceAll t0 (strL "FOR SBCS DATA") []) else t0
  convertTypeRules t tableName columnName

/-- The script's `convert_default_value`: bare `WITH DEFAULT` is dropped
with a diagnostic, a `WITH DEFAULT ` introducer is stripped, registers
like `CURRENT TIMESTAMP` are rewritten, `USER` becomes `CURRENT_USER`
with a diagnostic, and the result is wrapped in `DEFAULT ...`. -/
def convertDefaultCore (e0 tableName columnName : List Char) : List Char × List Diag :=
    if upperL e0 = strL "WITH DEFAULT" then
      ([], [mkDiag tableName columnName (strL "ambiguous default removed") (strL "WITH DEFAULT")])
    else
      let e1 := if (strL "WITH DEFAULT ").isPrefixOf (upperL e0) then e0.drop 13 else e0
      let e2 := subPhrase (strL "TIMESTAMP") (strL "CURRENT_TIMESTAMP") e1
      let e3 := subPhrase (strL "DATE") (strL "CURRENT_DATE") e2
      let e4 := subPhrase (strL "TIME") (strL "CURRENT_TIME") e3
      if searchUser e4 then
        (strL "DEFAULT " ++ subUser (strL "CURRENT_USER") e4,
         [mkDiag tableName columnName (strL "USER converted to CURRENT_USER") e4])
      else (strL "DEFAULT " ++ e4, [])

/-- The script's `convert_default_value` (see `convertDefaultCore` for
the body after the emptiness check and stripping). -/
def convert_default_value (defaultExpr tableName columnName : List Char) : List Char × List Diag :=
  if defaultExpr = [] then ([], [])
  else convertDefaultCore (pyStrip defaultExpr) tableName columnName

/-- The boundary keywords that end the type-expression span in
`parse_column_definition`, in the script's order. -/
def typeEndKeywords : List (List Char) :=
  [strL "NOT NULL", strL "WITH DEFAULT", strL "NULL", strL "CONSTRAINT",
   strL "PRIMARY KEY", strL "UNIQUE", strL "CHECK"]

/-- Position where the type expression ends: the minimum over the first
occurrences (via `str.find` on the uppercased definition) of the
boundary keywords, defaulting to the end of the definition. -/
def typeEndPos (cd : List Char) : Nat :=
  typeEndKeywords.foldl
    (fun acc kw =>
      match findSub (upperL cd) kw with
      | some p => if p < acc then p else acc
      | none => acc)
    cd.length

/-- Intermediate fields computed by `parse_column_definition` for a
nonempty stripped definition `cd`. -/
structure ColParts where
  name : List Char
  dataTypePart : List Char
  snowType : List Char
  notNull : Bool
  nullAttr : Bool
  defaultValue : List Char
  diags : List Diag

/-- Field computation of `parse_column_definition` (the body between the
keyword scan and the final join). -/
def colParts (cd tableName : List Char) : ColParts :=
  let name := ((splitWS cd).headD [])
  let tep := typeEndPos cd
  let dtp := pyStrip (sliceL cd name.length tep)
  let rem := pyStrip (sliceL cd tep cd.length)
  let conv := convert_data_type dtp tableName name
  let remU := upperL rem
  let notNull := hasSub remU (strL "NOT NULL")
  let nullAttr := hasSub remU (strL "NULL") && !hasSub remU (strL "NOT NULL")
  let dv := match searchWithDefault rem with
    | some g0 => convert_default_value g0 tableName name
    | none => ([], [])
  ⟨name, dtp, conv.1, notNull, nullAttr, dv.1, conv.2 ++ dv.2⟩

/-- Final join of `parse_column_definition`: name, converted type,
nullability, then the default clause when present. -/
def assembleCol (p : ColParts) : List Char :=
  joinSpace (([p.name, p.snowType] ++
    (if p.notNull then [strL "NOT NULL"] else if p.nullAttr then [strL "NULL"] else [])) ++
    (if p.defaultValue ≠ [] then [p.defaultValue] else []))

/-- The script's `parse_column_definition`, returning the converted
column text and the diagnostics it logged. -/
def parse_column_definition (columnDef tableName : List Char) : List Char × List Diag :=
  let cd := pyStrip columnDef
  if cd = [] then ([], [])
  else
    match splitWS cd with
    | [] => (cd, [])
    | _ :: _ =>
      let p := colParts cd tableName
      (assembleCol p, p.diags)

/-- The script's `extract_primary_keys`: the inline pattern is searched
first; only when it fails is the table-level `PRIMARY KEY (col, ...)`
clause consulted, its list split on commas and stripped. -/
def extract_primary_keys (stmt : List Char) : List (List Char) :=
  match searchInline stmt with
  | some w => [w]
  | none =>
    match searchTablePK stmt with
    | some g => (splitOnChar ',' g).map pyStrip
    | none => []

/-- State of the conversion loop in `convert_db2_to_snowflake`. -/
structure ConvState where
  resultLines : List (List Char)
  columnDefs : List (List Char)
  inColumns : Bool
  diags : List Diag

/-- Indent the accumulated column definitions two spaces and append a
comma to all but the last, as the flush at the closing parenthesis does. -/
def flushCols : List (List Char) → List (List Char)
  | [] => []
  | [c] => [strL "  " ++ c]
  | c :: c' :: cs => (strL "  " ++ c ++ [',']) :: flushCols (c' :: cs)

/-- DB2-specific options whose lines are skipped. -/
def skipOptionKeywords : List (List Char) :=
  [strL "PARTITION BY", strL "AUDIT", strL "DATA CAPTURE", strL "CCSID"]

/-- Constraint keywords that, at the start of a body line, make the
conversion loop skip it. -/
def constraintStarts : List (List Char) :=
  [strL "CONSTRAINT", strL "PRIMARY KEY", strL "UNIQUE", strL "CHECK"]

/-- The conversion loop of `convert_db2_to_snowflake` (everything
between `for line in lines` and the loop's end; the `break` at the
closing parenthesis returns without consuming further lines). -/
def convGo (tableName : List Char) : List (List Char) → ConvState → ConvState
  | [], st => st
  | raw :: rest, st =>
    let line := pyStrip raw
    if line = [] then convGo tableName rest st
    else if (strL "--").isPrefixOf line then convGo tableName rest st
    else if (strL "CREATE TABLE").isPrefixOf (upperL line) then
      match searchQualified line with
      | some (sch, tbl) =>
        let newLine := strL "CREATE TABLE " ++ sch ++ strL "." ++ tbl ++ strL " ("
        convGo tableName rest ⟨st.resultLines ++ [newLine], st.columnDefs, true, st.diags⟩
      | none =>
        match searchSingle line with
        | some tbl =>
          let newLine := strL "CREATE TABLE " ++ tbl ++ strL " ("
          convGo tableName rest ⟨st.resultLines ++ [newLine], st.columnDefs, true, st.diags⟩
        | none => convGo tableName rest st
    else if skipOptionKeywords.any (fun kw => hasSub (upperL line) kw) then
      convGo tableName rest st
    else if line = strL ")" ∨ line = strL ");" then
      ⟨st.resultLines ++ flushCols st.columnDefs ++ [strL ");"], st.columnDefs, false, st.diags⟩
    else if st.inColumns then
      if constraintStarts.any (fun kw => kw.isPrefixOf (upperL line)) then
        convGo tableName rest st
      else
        let line' := if line.getLast? = some ',' then line.dropLast else line
        let conv := parse_column_definition line' tableName
        let st' := { st with diags := st.diags ++ conv.2 }
        if conv.1 ≠ [] ∧ pyStrip conv.1 ≠ [] then
          convGo tableName rest { st' with columnDefs := st'.columnDefs ++ [conv.1] }
        else convGo tableName rest st'
    else convGo tableName rest st

/-- The script's `convert_db2_to_snowflake` with the output kept as a
list of lines: primary keys are extracted up front, the loop rewrites
the statement, and a trailing `ALTER TABLE ... ADD PRIMARY KEY` line is
appended when keys were found (named by the `table_name` argument). -/
def convertLines (content tableName : List Char) : List (List Char) × List Diag :=
  let pks := extract_primary_keys content
  let st := convGo tableName (splitNl content) ⟨[], [], false, []⟩
  let lines := if pks ≠ [] then
      st.resultLines ++
        [strL "ALTER TABLE " ++ tableName ++ strL " ADD PRIMARY KEY (" ++
          joinCommaSpace pks ++ strL ");"]
    else st.resultLines
  (lines, st.diags)

/-- The script's `convert_db2_to_snowflake` (joined output text). -/
def convert_db2_to_snowflake (content tableName : List Char) : List Char × List Diag :=
  let r := convertLines content tableName
  (joinNl r.1, r.2)

/-- Table name chosen by `process_table_file`: the input file's stem
with `__` replaced by `.` (`SCHEMA__TABLE.sql` becomes `SCHEMA.TABLE`). -/
def processTableName (stem : List Char) : List Char :=
  replaceAll stem (strL "__") (strL ".")

/-! ### Concrete inputs used by the theorems -/

/-- Scenario 1 of the specification (also the scripts' self-test
statement). -/
def scenario1 : List Char :=
  strL "CREATE TABLE APP.ACCOUNT (\n  ACCOUNT_ID INTEGER NOT NULL CONSTRAINT PK_ACC PRIMARY KEY,\n  NAME VARCHAR(100) FOR SBCS DATA NOT NULL WITH DEFAULT '',\n  CRT_TS TIMESTAMP NOT NULL WITH DEFAULT CURRENT TIMESTAMP,\n  BAL DECIMAL(18,2) WITH DEFAULT 0,\n  NOTES CLOB(1M),\n  CODE CHAR(3) WITH DEFAULT\n);"

/-- Expected Snowflake output for Scenario 1. -/
def scenario1Out : List Char :=
  strL "CREATE TABLE APP.ACCOUNT (\n  ACCOUNT_ID INTEGER NOT NULL,\n  NAME VARCHAR(100) NOT NULL DEFAULT '',\n  CRT_TS TIMESTAMP_NTZ NOT NULL DEFAULT CURRENT_TIMESTAMP,\n  BAL NUMBER(18,2) DEFAULT 0,\n  NOTES VARCHAR,\n  CODE CHAR(3)\n);\nALTER TABLE APP.ACCOUNT ADD PRIMARY KEY (ACCOUNT_ID);"

/-- An input on which block-comment removal manufactures a fresh block
comment, so a second stripping pass removes more text. -/
def nonIdemInput : List Char := strL "//*x*/*abc*/"

/-- A statement carrying both primary-key forms, with the table-level
clause first: the inline pattern's leftmost match then starts at the
`CREATE TABLE` line and captures `CREATE`. -/
def bothPkStmt : List Char :=
  strL "CREATE TABLE T (\nPRIMARY KEY (A),\nID INTEGER PRIMARY KEY\n);"

/-- A statement carrying both primary-key forms in the usual order
(inline-marked column line first). -/
def bothPkStmtUsual : List Char :=
  strL "CREATE TABLE T (\nA_ID INTEGER NOT NULL PRIMARY KEY,\nPRIMARY KEY (A_ID, B)\n);"

/-- A statement whose opening line is `CREATE TABLE WIDGETS (` (no
schema prefix) but whose body happens to contain text matching the
qualified pattern. -/
def widgetsTrapStmt : List Char :=
  strL "CREATE TABLE WIDGETS (\nFOO CREATE TABLE AA.BB INTEGER\n);"

/-- Invariant carried through the segmenter's fold: an open statement's
first accumulated line matches the `CREATE TABLE` pattern, and every
emitted statement is identifiable. -/
def SegInv (st : SegState) : Prop :=
  (st.inCT = true → ∃ hLine t, st.cur = hLine :: t ∧ matchCreate hLine = true) ∧
  (∀ s ∈ st.stmts, extract_schema_table_name s ≠ none)

/-- Stripped non-blank lines of a raw line list: the lines the segmenter
actually accumulates and counts. -/
def nbs (bs : List (List Char)) : List (List Char) :=
  (bs.map pyStrip).filter (fun l => !l.isEmpty)

/-- Total parenthesis balance of a list of lines. -/
def balSum (ss : List (List Char)) : Int := (ss.map parenBal).sum

/-- No prefix of `ns`, starting from depth `d`, triggers the segmenter's
close condition (depth `≤ 0` together with a trailing semicolon). -/
def noCloseB (d : Int) : List (List Char) → Bool
  | [] => true
  | n :: ns => (!(decide (d + parenBal n ≤ 0) && endsSemi n)) && noCloseB (d + parenBal n) ns

/-- Opening line of the C4 witness statement. -/
def c4Head : List Char := strL "CREATE TABLE APP.ACCOUNT ("

/-- Body lines of the C4 witness statement. -/
def c4Body : List (List Char) :=
  [strL "  A_ID INTEGER NOT NULL,", strL "  NOTES CLOB(1M)", strL ");"]

/-! ### Theorems -/

/-- C1: on the Scenario 1 statement the transpiler emits exactly the
expected text — `NAME` becomes `VARCHAR(100)`, `CRT_TS` becomes
`TIMESTAMP_NTZ` with `DEFAULT CURRENT_TIMESTAMP`, `BAL` becomes
`NUMBER(18,2)`, `NOTES` becomes `VARCHAR`, the trailing
`ALTER TABLE APP.ACCOUNT ADD PRIMARY KEY (ACCOUNT_ID);` is appended
from the inline marker — and the diagnostics list is exactly the single
size-loss record for `NOTES` (so no diagnostic for `NAME`). -/
theorem scenario1_conversion :
    convert_db2_to_snowflake scenario1 (strL "APP.ACCOUNT") =
      (scenario1Out,
       [⟨strL "APP.ACCOUNT", strL "NOTES",
         strL "CLOB mapped to VARCHAR (possible size loss)", strL "CLOB(1M)"⟩]) := by
  rfl

/-- C2: on the bare-placeholder column `CODE CHAR(3) WITH DEFAULT` the
parser drops the default clause but records no diagnostic at all — the
ambiguous-default branch of `convert_default_value` (second conjunct)
does emit the record, yet the default-capture regex refuses a bare
`WITH DEFAULT`, so that branch is never reached from
`parse_column_definition`.  This contradicts the claimed (and clearly
intended) single ambiguous-default diagnostic. -/
theorem bare_default_yields_no_diagnostic :
    parse_column_definition (strL "CODE CHAR(3) WITH DEFAULT") (strL "APP.ACCOUNT") =
      (strL "CODE CHAR(3)", []) ∧
    convert_default_value (strL "WITH DEFAULT") (strL "APP.ACCOUNT") (strL "CODE") =
      ([], [⟨strL "APP.ACCOUNT", strL "CODE",
            strL "ambiguous default removed", strL "WITH DEFAULT"⟩]) := by
  exact ⟨rfl, rfl⟩

/-- C3 counterexample: comment stripping is not idempotent — on
`//*x*/*abc*/` one pass yields `/*abc*/` (block removal manufactured a
new block comment) and a second pass erases it. -/
theorem strip_comments_not_idempotent :
    strip_comments (strip_comments nonIdemInput) ≠ strip_comments nonIdemInput := by
  decide

/-- C5 counterexample: on a statement containing both an inline marker
(`ID INTEGER PRIMARY KEY`) and a table-level clause (`PRIMARY KEY (A)`),
extraction returns `[CREATE]` — neither the inline column `ID` nor the
table-level list — because the leftmost match of the inline pattern
starts at the `CREATE TABLE` line when the table-level clause is the
first body line. -/
theorem inline_pk_counterexample :
    extract_primary_keys bothPkStmt = [strL "CREATE"] ∧
    strL "CREATE" ≠ strL "ID" ∧ strL "CREATE" ≠ strL "A" := by
  refine ⟨rfl, by decide, by decide⟩

/-- C6 counterexample: a statement whose opening line is
`CREATE TABLE WIDGETS (` — matching the single-identifier form and not
the qualified form — can still be assigned a schema other than
`DEFAULT`, because identity extraction searches the whole statement:
here the body text `FOO CREATE TABLE AA.BB INTEGER` makes it return
`(AA, BB)` and filename `AA__BB.sql` instead of `(DEFAULT, WIDGETS)`. -/
theorem schema_default_counterexample :
    parseCreateQual (strL "CREATE TABLE WIDGETS (") = none ∧
    parseCreateSingle (strL "CREATE TABLE WIDGETS (") = some (strL "WIDGETS") ∧
    extract_schema_table_name widgetsTrapStmt = some (strL "AA", strL "BB") ∧
    some (strL "AA", strL "BB") ≠ some (strL "DEFAULT", strL "WIDGETS") := by
  refine ⟨rfl, rfl, rfl, by decide⟩

/-- C7: the type-mapping function of the embedding is pure — the issue
log is modelled as part of the return value — so two runs on identical
type strings in identical table/column context return the identical
target type and the identical diagnostics (or absence thereof). -/
theorem convert_data_type_deterministic (t₁ t₂ tbl col : List Char) (h : t₁ = t₂) :
    convert_data_type t₁ tbl col = convert_data_type t₂ tbl col := by
  rw [h]

/-- Witness for `convert_data_type_deterministic` at `CLOB(1M)`. -/
theorem convert_data_type_deterministic_witness :
    strL "CLOB(1M)" = strL "CLOB(1M)" ∧
    convert_data_type (strL "CLOB(1M)") (strL "APP.ACCOUNT") (strL "NOTES") =
      convert_data_type (strL "CLOB(1M)") (strL "APP.ACCOUNT") (strL "NOTES") :=
  ⟨rfl, convert_data_type_deterministic _ _ _ _ rfl⟩

/-! ### Substring toolkit -/

/-- Boolean prefix test reflected to the `<+:` relation. -/
theorem isPre_iff {pat s : List Char} : pat.isPrefixOf s = true ↔ pat <+: s :=
  List.isPrefixOf_iff_prefix

/-- A successful `findSub` points at an occurrence. -/
theorem findSub_isPre {s pat : List Char} {i : Nat} (h : findSub s pat = some i) :
    pat <+: s.drop i := by
  induction s generalizing i with
  | nil =>
    rw [findSub] at h
    by_cases hp : pat.isPrefixOf [] = true
    · simp [hp] at h
      subst h
      exact isPre_iff.mp hp
    · simp [hp] at h
  | cons c t ih =>
    rw [findSub] at h
    by_cases hp : pat.isPrefixOf (c :: t) = true
    · simp [hp] at h
      subst h
      exact isPre_iff.mp hp
    · simp [hp] at h
      rcases h with ⟨j, hj, rfl⟩
      simpa using ih hj

/-- Any occurrence gives a `findSub` hit at that index or earlier. -/
theorem findSub_le_of_occ {s pat : List Char} {j : Nat} (h : pat <+: s.drop j) :
    ∃ i, i ≤ j ∧ findSub s pat = some i := by
  induction j generalizing s with
  | zero =>
    refine ⟨0, le_refl 0, ?_⟩
    rw [findSub.eq_def, if_pos (isPre_iff.mpr (by simpa using h))]
  | succ j ih =>
    by_cases hp : pat.isPrefixOf s = true
    · exact ⟨0, Nat.zero_le _, by rw [findSub.eq_def, if_pos hp]⟩
    · cases s with
      | nil =>
        simp at h
        exact absurd (isPre_iff.mpr (by simp [h])) hp
      | cons c t =>
        simp only [List.drop_succ_cons] at h
        rcases ih h with ⟨i, hi, hfs⟩
        exact ⟨i + 1, Nat.succ_le_succ hi, by rw [findSub.eq_def, if_neg hp]; simp [hfs]⟩

/-- Occurrence characterization of `hasSub`. -/
theorem hasSub_iff_occ {s pat : List Char} :
    hasSub s pat = true ↔ ∃ i, pat <+: s.drop i := by
  constructor
  · intro h
    rw [hasSub, Option.isSome_iff_exists] at h
    rcases h with ⟨i, hi⟩
    exact ⟨i, findSub_isPre hi⟩
  · rintro ⟨i, hi⟩
    rcases findSub_le_of_occ hi with ⟨i', _, hfs⟩
    rw [hasSub, hfs]
    rfl

/-- The empty string contains only the empty pattern. -/
theorem hasSub_nil {pat : List Char} : hasSub [] pat = true ↔ pat = [] := by
  rw [hasSub_iff_occ]
  constructor
  · rintro ⟨i, hi⟩
    simpa using List.eq_nil_of_prefix_nil (by simpa using hi)
  · rintro rfl
    exact ⟨0, List.nil_prefix⟩

/-- Containment is preserved by prepending a character. -/
theorem hasSub_cons_of {c : Char} {t pat : List Char} (h : hasSub t pat = true) :
    hasSub (c :: t) pat = true := by
  rcases hasSub_iff_occ.mp h with ⟨i, hi⟩
  exact hasSub_iff_occ.mpr ⟨i + 1, by simpa using hi⟩

/-- Containment is preserved by appending on the right. -/
theorem hasSub_append_left {a b pat : List Char} (h : hasSub a pat = true) :
    hasSub (a ++ b) pat = true := by
  rcases hasSub_iff_occ.mp h with ⟨i, hi⟩
  refine hasSub_iff_occ.mpr ⟨i, ?_⟩
  rw [List.drop_append_eq_append_drop]
  exact hi.trans ((a.drop i).prefix_append _)

/-- Containment is preserved by prepending on the left. -/
theorem hasSub_append_right {a b pat : List Char} (h : hasSub b pat = true) :
    hasSub (a ++ b) pat = true := by
  induction a with
  | nil => simpa using h
  | cons c t ih => exact hasSub_cons_of ih

/-- Containment transfers along list prefixes. -/
theorem hasSub_of_pre {a b pat : List Char} (hp : a <+: b) (h : hasSub a pat = true) :
    hasSub b pat = true := by
  rcases hp with ⟨r, rfl⟩
  exact hasSub_append_left h

/-- One-step unfolding of `hasSub` on a cons cell. -/
theorem hasSub_cons_eq {c : Char} {t pat : List Char} :
    hasSub (c :: t) pat = (pat.isPrefixOf (c :: t) || hasSub t pat) := by
  rw [hasSub, findSub]
  by_cases hp : pat.isPrefixOf (c :: t) = true
  · simp [hp]
  · simp [hp, hasSub]

/-- Keyword-position fold of `typeEndPos` never increases the
accumulator. -/
theorem tfold_le_acc (u : List Char) :
    ∀ (kws : List (List Char)) (acc : Nat),
      kws.foldl
        (fun acc kw =>
          match findSub u kw with
          | some p => if p < acc then p else acc
          | none => acc) acc ≤ acc := by
  intro kws
  induction kws with
  | nil => intro acc; exact le_refl acc
  | cons k rest ih =>
    intro acc
    refine le_trans (ih _) ?_
    rcases hfs : findSub u k with _ | p
    · simp only [hfs]
      exact le_refl acc
    · simp only [hfs]
      split <;> omega

/-- Keyword-position fold of `typeEndPos` is bounded by every hit of a
listed keyword. -/
theorem tfold_le_mem (u : List Char) :
    ∀ (kws : List (List Char)) (acc : Nat) (kw : List Char) (p : Nat),
      kw ∈ kws → findSub u kw = some p →
      kws.foldl
        (fun acc kw =>
          match findSub u kw with
          | some p => if p < acc then p else acc
          | none => acc) acc ≤ p := by
  intro kws
  induction kws with
  | nil => intro acc kw p hm; exact absurd hm (List.not_mem_nil kw)
  | cons k rest ih =>
    intro acc kw p hm hfs
    rcases List.mem_cons.mp hm with rfl | hm'
    · refine le_trans (tfold_le_acc u rest _) ?_
      simp only [List.foldl_cons, hfs]
      split
      · exact le_refl p
      · omega
    · exact ih _ kw p hm' hfs

/-- The type-expression cut position never exceeds a hit of any boundary
keyword in the uppercased definition. -/
theorem typeEndPos_le_occ {cd kw : List Char} {p : Nat}
    (hkw : kw ∈ typeEndKeywords) (hfs : findSub (upperL cd) kw = some p) :
    typeEndPos cd ≤ p :=
  tfold_le_mem (upperL cd) typeEndKeywords cd.length kw p hkw hfs

/-- The head surviving `dropWhile` falsifies the predicate. -/
theorem dropWhile_head_not {p : Char → Bool} {l : List Char} {c : Char} {t : List Char}
    (h : l.dropWhile p = c :: t) : p c = false := by
  induction l with
  | nil => simp at h
  | cons x xs ih =>
    rw [List.dropWhile] at h
    cases hx : p x
    · simp [hx] at h
      rcases h with ⟨rfl, rfl⟩
      exact hx
    · simp [hx] at h
      exact ih h

/-- Right-stripping yields a prefix of the original. -/
theorem pyRStrip_pre (l : List Char) : pyRStrip l <+: l := by
  have hs : l.reverse.dropWhile pyWS <:+ l.reverse := List.dropWhile_suffix _
  have h2 : (l.reverse.dropWhile pyWS).reverse <+: l.reverse.reverse :=
    List.reverse_prefix.mpr hs
  rw [pyRStrip]
  rwa [List.reverse_reverse] at h2

/-- A nonempty `pyStrip` result starts with a non-whitespace character. -/
theorem pyStrip_head_not_ws {l : List Char} {c : Char} {t : List Char}
    (h : pyStrip l = c :: t) : pyWS c = false := by
  rw [pyStrip, pyLStrip] at h
  have hpre : pyRStrip (l.dropWhile pyWS) <+: l.dropWhile pyWS := pyRStrip_pre _
  rw [h] at hpre
  rcases hpre with ⟨r, hr⟩
  exact dropWhile_head_not hr.symm

/-- On a stripped nonempty definition, the first `str.split()` token is
the maximal non-whitespace run. -/
theorem splitWS_head {c : Char} {t : List Char} (h : pyWS c = false) :
    (splitWS (c :: t)).headD [] = (c :: t).takeWhile (fun x => !pyWS x) := by
  have hd : (c :: t).dropWhile pyWS = c :: t := by
    rw [List.dropWhile]
    simp [h]
  simp only [splitWS, List.length_cons, splitWSAux, hd]
  rfl

/-- Text before the first occurrence of a nonempty pattern does not
contain the pattern. -/
theorem not_hasSub_take_first {l pat : List Char} {p : Nat}
    (h : findSub l pat = some p) (hne : pat ≠ []) :
    hasSub (l.take p) pat = false := by
  by_contra hcon
  rw [Bool.not_eq_false] at hcon
  rcases hasSub_iff_occ.mp hcon with ⟨i, hi⟩
  rw [List.drop_take] at hi
  have hlen : pat.length ≤ p - i := le_trans hi.length_le (by simp)
  have hpos : 0 < pat.length := List.length_pos.mpr hne
  have hip : i < p := by omega
  have hocc : pat <+: l.drop i := hi.trans (List.take_prefix _ _)
  rcases findSub_le_of_occ hocc with ⟨i', hi', hfs⟩
  rw [h] at hfs
  injection hfs with hfs
  omega

/-- All boundary keywords are nonempty. -/
theorem typeEndKeywords_ne_nil : ∀ kw ∈ typeEndKeywords, kw ≠ [] := by decide

/-- C9: boundary-keyword detection is a substring search, not a
whole-word match — whenever the column name (the first token of the
definition) contains a boundary keyword as a substring, the cut
position falls inside the name, the computed type-expression span is
empty, and the converted column's type is the empty string. -/
theorem boundary_keyword_substring_empty_type (colDef tbl : List Char)
    (h : ∃ kw ∈ typeEndKeywords,
      hasSub (upperL ((splitWS (pyStrip colDef)).headD [])) kw = true) :
    (colParts (pyStrip colDef) tbl).dataTypePart = [] ∧
    (colParts (pyStrip colDef) tbl).snowType = [] := by
  rcases h with ⟨kw, hkw, hsub⟩
  have hkwne : kw ≠ [] := typeEndKeywords_ne_nil kw hkw
  cases hcd : pyStrip colDef with
  | nil =>
    rw [hcd] at hsub
    simp only [splitWS, List.length_nil, splitWSAux, List.headD_nil] at hsub
    have : upperL [] = [] := rfl
    rw [this] at hsub
    exact absurd (hasSub_nil.mp hsub) hkwne
  | cons c t =>
    have hcws : pyWS c = false := pyStrip_head_not_ws hcd
    have hname : (splitWS (c :: t)).headD [] = (c :: t).takeWhile (fun x => !pyWS x) :=
      splitWS_head hcws
    rw [hcd] at hsub
    rw [hname] at hsub
    have hpre : (c :: t).takeWhile (fun x => !pyWS x) <+: (c :: t) :=
      List.takeWhile_prefix _
    have htake : (c :: t).takeWhile (fun x => !pyWS x) =
        (c :: t).take ((c :: t).takeWhile (fun x => !pyWS x)).length :=
      List.prefix_iff_eq_take.mp hpre
    have hup : upperL ((c :: t).takeWhile (fun x => !pyWS x)) =
        (upperL (c :: t)).take ((c :: t).takeWhile (fun x => !pyWS x)).length := by
      rw [htake]
      simp [upperL, List.map_take]
    rw [hup] at hsub
    rcases hasSub_iff_occ.mp hsub with ⟨i, hi⟩
    rw [List.drop_take] at hi
    have hklen : kw.length ≤ ((c :: t).takeWhile (fun x => !pyWS x)).length - i :=
      le_trans hi.length_le (by simp)
    have hkpos : 0 < kw.length := List.length_pos.mpr hkwne
    have hocc : kw <+: (upperL (c :: t)).drop i := hi.trans (List.take_prefix _ _)
    rcases findSub_le_of_occ hocc with ⟨p, hpi, hfs⟩
    have htep : typeEndPos (c :: t) ≤ p := typeEndPos_le_occ hkw hfs
    have hlt : typeEndPos (c :: t) < ((c :: t).takeWhile (fun x => !pyWS x)).length := by
      omega
    have hdtp : (colParts (c :: t) tbl).dataTypePart = [] := by
      simp only [colParts, hname, sliceL]
      rw [Nat.sub_eq_zero_of_le (le_of_lt hlt)]
      rfl
    refine ⟨hdtp, ?_⟩
    have hsnow : (colParts (c :: t) tbl).snowType =
        (convert_data_type (colParts (c :: t) tbl).dataTypePart tbl
          ((splitWS (c :: t)).headD [])).1 := by
      simp only [colParts]
    rw [hsnow, hdtp]
    rfl

/-- Witness for `boundary_keyword_substring_empty_type` at the column
definition `CHECKSUM INTEGER`, whose name contains `CHECK`. -/
theorem boundary_keyword_substring_empty_type_witness :
    (∃ kw ∈ typeEndKeywords,
      hasSub (upperL ((splitWS (pyStrip (strL "CHECKSUM INTEGER"))).headD [])) kw = true) ∧
    ((colParts (pyStrip (strL "CHECKSUM INTEGER")) (strL "T")).dataTypePart = [] ∧
     (colParts (pyStrip (strL "CHECKSUM INTEGER")) (strL "T")).snowType = []) :=
  ⟨by decide, boundary_keyword_substring_empty_type (strL "CHECKSUM INTEGER") (strL "T")
    (by decide)⟩

/-- C5 amended: whenever the inline-pattern search succeeds — as it does
whenever an inline per-column marker is present — primary-key extraction
returns exactly the singleton of the captured word and never consults
the table-level `PRIMARY KEY (col, ...)` list.  (The captured word is
the inline-marked column in the usual layout, but see the
counterexample: it is `CREATE` when a table-level clause directly
follows the opening line.) -/
theorem inline_pk_priority (stmt w : List Char) (h : searchInline stmt = some w) :
    extract_primary_keys stmt = [w] := by
  rw [extract_primary_keys, h]

/-- Witness for `inline_pk_priority` on a statement carrying both forms
in the usual order: the captured word is the inline column `A_ID` and
the table-level list `(A_ID, B)` is ignored. -/
theorem inline_pk_priority_witness :
    searchInline bothPkStmtUsual = some (strL "A_ID") ∧
    extract_primary_keys bothPkStmtUsual = [strL "A_ID"] :=
  ⟨by rfl, inline_pk_priority bothPkStmtUsual (strL "A_ID") (by rfl)⟩

/-- Projection of `mkDiag` used when discharging diagnostic origins. -/
theorem mkDiag_table (t c i s : List Char) : (mkDiag t c i s).table = t := rfl

/-- Diagnostics of the type rule table always carry the table name it
was called with. -/
theorem convertTypeRules_diag_table (t tbl col : List Char) :
    ∀ d ∈ (convertTypeRules t tbl col).2, d.table = tbl := by
  intro d hd
  unfold convertTypeRules at hd
  simp only [apply_ite Prod.snd, apply_ite (fun l => d ∈ l), List.mem_singleton,
    List.not_mem_nil, ite_prop_iff_or, false_and, and_false, false_or, or_false] at hd
  repeat' (first | (rcases hd with hd | hd) | (rcases hd with ⟨_, hd⟩))
  all_goals first | rfl | (rename_i h; rw [h]; rfl)

/-- Diagnostics of `convert_data_type` always carry the table name it
was called with. -/
theorem convert_data_type_diag_table (t tbl col : List Char) :
    ∀ d ∈ (convert_data_type t tbl col).2, d.table = tbl := by
  intro d hd
  simp only [convert_data_type] at hd
  exact convertTypeRules_diag_table _ _ _ d hd

/-- Diagnostics of `convert_default_value` always carry the table name
it was called with. -/
theorem convertDefaultCore_diag_table (e0 tbl col : List Char) :
    ∀ d ∈ (convertDefaultCore e0 tbl col).2, d.table = tbl := by
  intro d hd
  unfold convertDefaultCore at hd
  simp only [apply_ite Prod.snd, apply_ite (fun l => d ∈ l), List.mem_singleton,
    List.not_mem_nil, ite_prop_iff_or, false_and, and_false, false_or, or_false] at hd
  repeat' (first | (rcases hd with hd | hd) | (rcases hd with ⟨_, hd⟩))
  all_goals rfl

/-- Diagnostics of `convert_default_value` always carry the table name
it was called with. -/
theorem convert_default_value_diag_table (e tbl col : List Char) :
    ∀ d ∈ (convert_default_value e tbl col).2, d.table = tbl := by
  intro d hd
  simp only [convert_default_value] at hd
  split at hd
  · exact absurd hd (List.not_mem_nil d)
  · exact convertDefaultCore_diag_table _ _ _ d hd

/-- Diagnostics of `parse_column_definition` always carry the table name
it was called with. -/
theorem parse_column_definition_diag_table (cd tbl : List Char) :
    ∀ d ∈ (parse_column_definition cd tbl).2, d.table = tbl := by
  intro d hd
  simp only [parse_column_definition] at hd
  split at hd
  · simp at hd
  · split at hd
    · simp at hd
    · simp only [colParts, List.mem_append] at hd
      rcases hd with hd | hd
      · exact convert_data_type_diag_table _ _ _ d hd
      · split at hd
        · exact convert_default_value_diag_table _ _ _ d hd
        · simp at hd

/-- The conversion loop only ever appends diagnostics produced by
`parse_column_definition` with its own table-name argument. -/
theorem convGo_diag_table (tbl : List Char) :
    ∀ (lines : List (List Char)) (st : ConvState),
      (∀ d ∈ st.diags, d.table = tbl) →
      ∀ d ∈ (convGo tbl lines st).diags, d.table = tbl := by
  intro lines
  induction lines with
  | nil => intro st hst; simpa [convGo] using hst
  | cons raw rest ih =>
    intro st hst d hd
    simp only [convGo] at hd
    repeat' split at hd
    all_goals
      first
      | exact ih _ hst d hd
      | exact hst d hd
      | (refine ih _ (fun d' hd' => ?_) d hd
         first
         | exact hst d' hd'
         | (simp only [List.mem_append] at hd'
            rcases hd' with h | h
            · exact hst d' h
            · exact parse_column_definition_diag_table _ tbl d' h))

/-- C10: the table name in every diagnostic record and in the trailing
`ALTER TABLE ... ADD PRIMARY KEY` statement is derived solely from the
input file's stem (with `__` replaced by `.`); the statement's own
parsed schema and table play no role, whatever the content is. -/
theorem table_name_from_filename (stem content : List Char) :
    (∀ d ∈ (convertLines content (processTableName stem)).2,
      d.table = processTableName stem) ∧
    (extract_primary_keys content ≠ [] →
      (convertLines content (processTableName stem)).1.getLast? =
        some (strL "ALTER TABLE " ++ processTableName stem ++ strL " ADD PRIMARY KEY (" ++
          joinCommaSpace (extract_primary_keys content) ++ strL ");")) := by
  constructor
  · intro d hd
    simp only [convertLines] at hd
    exact convGo_diag_table _ _ _ (by simp) d hd
  · intro hne
    simp only [convertLines, if_pos hne]
    exact List.getLast?_concat _

/-- Witness for `table_name_from_filename`: a file stem `WRONG__NAME`
that disagrees with the statement's own `APP.ACCOUNT` still names the
ALTER statement `WRONG.NAME`. -/
theorem table_name_from_filename_witness :
    extract_primary_keys scenario1 ≠ [] ∧
    (convertLines scenario1 (processTableName (strL "WRONG__NAME"))).1.getLast? =
      some (strL "ALTER TABLE WRONG.NAME ADD PRIMARY KEY (ACCOUNT_ID);") := by
  refine ⟨by decide, ?_⟩
  rw [(table_name_from_filename (strL "WRONG__NAME") scenario1).2 (by decide)]
  rfl

/-! ### Segmenter output is always identifiable (C8) -/

/-- Case-insensitive literal consumption extends along appends. -/
theorem consumeLitCI_append {lit h r : List Char} (ext : List Char)
    (hc : consumeLitCI lit h = some r) :
    consumeLitCI lit (h ++ ext) = some (r ++ ext) := by
  induction lit generalizing h with
  | nil =>
    simp only [consumeLitCI] at hc ⊢
    injection hc with hc
    rw [hc]
  | cons c cs ih =>
    cases h with
    | nil => simp [consumeLitCI] at hc
    | cons x xs =>
      simp only [consumeLitCI, List.cons_append] at hc ⊢
      split at hc
      · rw [if_pos (by assumption)]
        exact ih hc
      · exact absurd hc (by simp)

/-- A successful consumption of a nonempty literal needs a nonempty
input. -/
theorem consumeLitCI_ne_nil {c : Char} {cs h r : List Char}
    (hc : consumeLitCI (c :: cs) h = some r) : h ≠ [] := by
  intro he
  rw [he] at hc
  simp [consumeLitCI] at hc

/-- A `dropWhile` that leaves a nonempty remainder is stable under
appending on the right. -/
theorem dropWhile_append_ne_nil {p : Char → Bool} {l r ext : List Char}
    (hd : l.dropWhile p = r) (hne : r ≠ []) :
    (l ++ ext).dropWhile p = r ++ ext := by
  induction l with
  | nil => exact absurd hd.symm (by simpa using hne)
  | cons x xs ih =>
    rw [List.dropWhile] at hd
    rw [List.cons_append, List.dropWhile]
    cases hx : p x
    · rw [hx] at hd
      simp only at hd ⊢
      rw [← hd]
      rfl
    · rw [hx] at hd
      simp only at hd ⊢
      exact ih hd

/-- Whitespace consumption extends along appends when the remainder is
nonempty. -/
theorem consumeWS1_append {h r : List Char} (ext : List Char)
    (hc : consumeWS1 h = some r) (hne : r ≠ []) :
    consumeWS1 (h ++ ext) = some (r ++ ext) := by
  cases h with
  | nil => simp [consumeWS1] at hc
  | cons c rest =>
    simp only [consumeWS1] at hc
    split at hc
    · injection hc with hc
      rw [List.cons_append]
      simp only [consumeWS1]
      rw [if_pos (by assumption)]
      rw [dropWhile_append_ne_nil hc hne]
    · exact absurd hc (by simp)

/-- Word consumption succeeds on any rightward extension of a successful
input. -/
theorem consumeWord1_append_isSome {h : List Char} {pr : List Char × List Char} (ext : List Char)
    (hc : consumeWord1 h = some pr) :
    (consumeWord1 (h ++ ext)).isSome = true := by
  cases h with
  | nil => simp [consumeWord1] at hc
  | cons c rest =>
    simp only [consumeWord1] at hc
    split at hc
    · rw [List.cons_append]
      simp only [consumeWord1]
      rw [if_pos (by assumption)]
      rfl
    · exact absurd hc (by simp)

/-- A successful word consumption needs a nonempty input. -/
theorem consumeWord1_ne_nil {h : List Char} {pr : List Char × List Char}
    (hc : consumeWord1 h = some pr) : h ≠ [] := by
  intro he
  rw [he] at hc
  simp [consumeWord1] at hc

/-- An anchored `CREATE TABLE <ident>` match survives appending text on
the right. -/
theorem parseCreateSingle_append {h : List Char} {w : List Char} {ext : List Char}
    (hp : parseCreateSingle h = some w) :
    (parseCreateSingle (h ++ ext)).isSome = true := by
  simp only [parseCreateSingle, Option.bind_eq_bind] at hp ⊢
  cases h1 : consumeLitCI (strL "CREATE") h with
  | none => rw [h1] at hp; simp at hp
  | some r1 =>
    rw [h1] at hp
    simp only [Option.some_bind] at hp
    cases h2 : consumeWS1 r1 with
    | none => rw [h2] at hp; simp at hp
    | some r2 =>
      rw [h2] at hp
      simp only [Option.some_bind] at hp
      cases h3 : consumeLitCI (strL "TABLE") r2 with
      | none => rw [h3] at hp; simp at hp
      | some r3 =>
        rw [h3] at hp
        simp only [Option.some_bind] at hp
        cases h4 : consumeWS1 r3 with
        | none => rw [h4] at hp; simp at hp
        | some r4 =>
          rw [h4] at hp
          simp only [Option.some_bind] at hp
          cases h5 : consumeWord1 r4 with
          | none => rw [h5] at hp; simp at hp
          | some pr =>
            have e1 := consumeLitCI_append ext h1
            have hr2ne : r2 ≠ [] := consumeLitCI_ne_nil h3
            have e2 := consumeWS1_append ext h2 hr2ne
            have e3 := consumeLitCI_append ext h3
            have hr4ne : r4 ≠ [] := consumeWord1_ne_nil h5
            have e4 := consumeWS1_append ext h4 hr4ne
            have e5 := consumeWord1_append_isSome ext h5
            rw [e1, Option.some_bind, e2, Option.some_bind, e3, Option.some_bind, e4,
              Option.some_bind]
            rcases Option.isSome_iff_exists.mp e5 with ⟨pr', hpr'⟩
            rw [hpr']
            cases pr'
            simp

/-- A matcher success at the first position makes the search succeed. -/
theorem searchAux_isSome_head {α : Type} {p : List Char → Option α} {s : List Char}
    (h : (p s).isSome = true) : (searchAux p s).isSome = true := by
  cases s with
  | nil => simpa [searchAux] using h
  | cons c rest =>
    rcases Option.isSome_iff_exists.mp h with ⟨r, hr⟩
    simp [searchAux, hr]

/-- Any statement whose first line matches the segmenter's `CREATE
TABLE` pattern is identifiable by `extract_schema_table_name`. -/
theorem schema_some_of_matchCreate {hLine : List Char} (hm : matchCreate hLine = true)
    (t : List (List Char)) :
    extract_schema_table_name (joinNl (hLine :: t)) ≠ none := by
  have hdecomp : ∃ ext, joinNl (hLine :: t) = hLine ++ ext := by
    cases t with
    | nil => exact ⟨[], by simp [joinNl]⟩
    | cons l ls => exact ⟨'\n' :: joinNl (l :: ls), by simp [joinNl]⟩
  rcases hdecomp with ⟨ext, hj⟩
  rw [extract_schema_table_name, hj]
  cases hq : searchQualified (hLine ++ ext) with
  | some pr => simp
  | none =>
    rw [matchCreate] at hm
    rcases Option.isSome_iff_exists.mp hm with ⟨w, hw⟩
    have hps : (parseCreateSingle (hLine ++ ext)).isSome = true :=
      parseCreateSingle_append hw
    have hss : (searchSingle (hLine ++ ext)).isSome = true :=
      searchAux_isSome_head hps
    rcases Option.isSome_iff_exists.mp hss with ⟨w', hw'⟩
    rw [hw']
    simp

/-- One segmenter step preserves the invariant. -/
theorem stepLine_inv {st : SegState} {raw : List Char} (hinv : SegInv st) :
    SegInv (stepLine st raw) := by
  obtain ⟨hcur, hstmts⟩ := hinv
  by_cases hblank : pyStrip raw = []
  · have hstep : stepLine st raw = st := by simp [stepLine, hblank]
    rw [hstep]
    exact ⟨hcur, hstmts⟩
  · by_cases hmc : matchCreate (pyStrip raw) = true
    · by_cases hemit : st.cur ≠ [] ∧ st.inCT = true
      · have hstep : stepLine st raw =
            ⟨st.stmts ++ [joinNl st.cur], [pyStrip raw], parenBal (pyStrip raw), true⟩ := by
          simp [stepLine, hblank, hmc, hemit]
        rw [hstep]
        refine ⟨fun _ => ⟨pyStrip raw, [], rfl, hmc⟩, ?_⟩
        intro s hs
        rcases List.mem_append.mp hs with h | h
        · exact hstmts s h
        · rcases hcur hemit.2 with ⟨hLine, t, hct, hm⟩
          rw [List.mem_singleton] at h
          rw [h, hct]
          exact schema_some_of_matchCreate hm t
      · have hstep : stepLine st raw =
            ⟨st.stmts, [pyStrip raw], parenBal (pyStrip raw), true⟩ := by
          simp only [stepLine, if_neg hblank, if_pos hmc, if_neg hemit]
        rw [hstep]
        exact ⟨fun _ => ⟨pyStrip raw, [], rfl, hmc⟩, hstmts⟩
    · by_cases hin : st.inCT = true
      · by_cases hclose : st.depth + parenBal (pyStrip raw) ≤ 0 ∧ endsSemi (pyStrip raw) = true
        · have hstep : stepLine st raw =
              ⟨st.stmts ++ [joinNl (st.cur ++ [pyStrip raw])], [], 0, false⟩ := by
            simp [stepLine, hblank, hmc, hin, hclose]
          rw [hstep]
          refine ⟨fun hf => absurd hf (by simp), ?_⟩
          intro s hs
          rcases List.mem_append.mp hs with h | h
          · exact hstmts s h
          · rcases hcur hin with ⟨hLine, t, hct, hm⟩
            rw [List.mem_singleton] at h
            rw [h, hct]
            exact schema_some_of_matchCreate hm (t ++ [pyStrip raw])
        · have hstep : stepLine st raw =
              ⟨st.stmts, st.cur ++ [pyStrip raw], st.depth + parenBal (pyStrip raw), true⟩ := by
            simp [stepLine, hblank, hmc, hin, hclose]
          rw [hstep]
          refine ⟨fun _ => ?_, hstmts⟩
          rcases hcur hin with ⟨hLine, t, hct, hm⟩
          exact ⟨hLine, t ++ [pyStrip raw], by rw [hct]; rfl, hm⟩
      · have hstep : stepLine st raw = st := by
          simp [stepLine, hblank, hmc, hin]
        rw [hstep]
        exact ⟨hcur, hstmts⟩

/-- The segmenter's fold preserves the invariant. -/
theorem foldl_stepLine_inv :
    ∀ (ls : List (List Char)) (st : SegState), SegInv st →
      SegInv (ls.foldl stepLine st) := by
  intro ls
  induction ls with
  | nil => intro st h; exact h
  | cons l rest ih => intro st h; exact ih _ (stepLine_inv h)

/-- C8: every statement emitted by the segmenter is identifiable — its
first line matched the `CREATE TABLE` pattern, so the single-identifier
search of `extract_schema_table_name` cannot fail and the
`(None, None)` skip branch of `process_input_file` is unreachable on
segmenter output. -/
theorem segmenter_output_identifiable (content s : List Char)
    (hs : s ∈ extract_create_table_statements content) :
    extract_schema_table_name s ≠ none := by
  have hinv : SegInv ((splitNl content).foldl stepLine ⟨[], [], 0, false⟩) :=
    foldl_stepLine_inv _ _ ⟨fun hf => absurd hf (by simp), by simp⟩
  obtain ⟨hcur, hstmts⟩ := hinv
  rw [extract_create_table_statements] at hs
  by_cases hcond : ((splitNl content).foldl stepLine ⟨[], [], 0, false⟩).cur ≠ [] ∧
      ((splitNl content).foldl stepLine ⟨[], [], 0, false⟩).inCT = true
  · rw [if_pos hcond] at hs
    rcases List.mem_append.mp hs with h | h
    · exact hstmts s h
    · rcases hcur hcond.2 with ⟨hLine, t, hct, hm⟩
      rw [List.mem_singleton] at h
      rw [h, hct]
      exact schema_some_of_matchCreate hm t
  · rw [if_neg hcond] at hs
    exact hstmts s hs

/-- Witness for `segmenter_output_identifiable` on the Scenario 1 text:
its single extracted statement is identifiable. -/
theorem segmenter_output_identifiable_witness :
    (joinNl ((splitNl scenario1).map pyStrip) ∈
      extract_create_table_statements scenario1) ∧
    extract_schema_table_name (joinNl ((splitNl scenario1).map pyStrip)) ≠ none :=
  ⟨by decide, segmenter_output_identifiable scenario1 _ (by decide)⟩

/-! ### Identity extraction on unqualified statements (C6 amended) -/

/-- Word characters are never whitespace. -/
theorem not_ws_of_word {c : Char} (h : isWordChar c = true) : pyWS c = false := by
  cases hws : pyWS c
  · rfl
  · exfalso
    simp only [pyWS, Bool.or_eq_true, decide_eq_true_eq] at hws
    rcases hws with ((((rfl | rfl) | rfl) | rfl) | rfl) | rfl <;> exact absurd h (by decide)

/-- Splitting a word run at a non-word boundary. -/
theorem word_run_split {ident rest : List Char}
    (hw : ∀ c ∈ ident, isWordChar c = true)
    (hrest : isWordChar (rest.headD ' ') = false) :
    (ident ++ rest).takeWhile isWordChar = ident ∧
    (ident ++ rest).dropWhile isWordChar = rest := by
  induction ident with
  | nil =>
    cases rest with
    | nil => exact ⟨rfl, rfl⟩
    | cons c t =>
      simp only [List.headD_cons] at hrest
      constructor
      · rw [List.nil_append, List.takeWhile]
        rw [hrest]
      · rw [List.nil_append, List.dropWhile]
        rw [hrest]
  | cons c t ih =>
    have hc : isWordChar c = true := hw c (by simp)
    have iht := ih (fun x hx => hw x (by simp [hx]))
    constructor
    · rw [List.cons_append, List.takeWhile, hc]
      simp only
      rw [iht.1]
    · rw [List.cons_append, List.dropWhile, hc]
      simp only
      exact iht.2

/-- A matcher hit at position 0 is what the search returns. -/
theorem searchAux_head_some {α : Type} {p : List Char → Option α} {s : List Char} {r : α}
    (h : p s = some r) : searchAux p s = some r := by
  cases s with
  | nil => simpa [searchAux] using h
  | cons c rest => simp [searchAux, h]

/-- Anchored parse of `CREATE TABLE <ident>` at the start of a statement
of exactly that shape captures the identifier. -/
theorem parseCreateSingle_of_shape {ident rest : List Char}
    (hid : ident ≠ []) (hw : ∀ c ∈ ident, isWordChar c = true)
    (hrest : isWordChar (rest.headD ' ') = false) :
    parseCreateSingle (strL "CREATE TABLE " ++ ident ++ rest) = some ident := by
  obtain ⟨c, t, rfl⟩ := List.exists_cons_of_ne_nil hid
  have hcw : isWordChar c = true := hw c (by simp)
  have hcws : pyWS c = false := not_ws_of_word hcw
  have h1 : consumeLitCI (strL "CREATE") (strL "CREATE TABLE " ++ (c :: t) ++ rest) =
      some (strL " TABLE " ++ (c :: t) ++ rest) := rfl
  have h2 : consumeWS1 (strL " TABLE " ++ (c :: t) ++ rest) =
      some (strL "TABLE " ++ (c :: t) ++ rest) := rfl
  have h3 : consumeLitCI (strL "TABLE") (strL "TABLE " ++ (c :: t) ++ rest) =
      some (strL " " ++ (c :: t) ++ rest) := rfl
  have h4 : consumeWS1 (strL " " ++ (c :: t) ++ rest) = some ((c :: t) ++ rest) := by
    show some (((c :: t) ++ rest).dropWhile pyWS) = some ((c :: t) ++ rest)
    rw [List.cons_append, List.dropWhile, hcws]
  have h5 : consumeWord1 ((c :: t) ++ rest) = some (c :: t, rest) := by
    have hsplit := word_run_split hw hrest
    rw [List.cons_append, consumeWord1, if_pos hcw, ← List.cons_append]
    rw [hsplit.1, hsplit.2]
  simp only [parseCreateSingle, Option.bind_eq_bind, h1, Option.some_bind, h2, h3, h4, h5]
  rfl

/-- C6 amended: on a statement shaped `CREATE TABLE <identifier> ...`
(no schema prefix at the front) in which the qualified pattern
`CREATE TABLE <ident>.<ident>` matches nowhere, identity extraction
returns `(DEFAULT, identifier)` and the output file is named
`DEFAULT__<identifier>.sql`.  The search-the-whole-statement caveat is
required: see the counterexample. -/
theorem schema_default_when_unqualified (ident rest : List Char)
    (hid : ident ≠ []) (hw : ∀ c ∈ ident, isWordChar c = true)
    (hrest : isWordChar (rest.headD ' ') = false)
    (hq : searchQualified (strL "CREATE TABLE " ++ ident ++ rest) = none) :
    extract_schema_table_name (strL "CREATE TABLE " ++ ident ++ rest) =
      some (strL "DEFAULT", ident) ∧
    outFileName (strL "CREATE TABLE " ++ ident ++ rest) =
      some (strL "DEFAULT__" ++ ident ++ strL ".sql") := by
  have hps : parseCreateSingle (strL "CREATE TABLE " ++ ident ++ rest) = some ident :=
    parseCreateSingle_of_shape hid hw hrest
  have hss : searchSingle (strL "CREATE TABLE " ++ ident ++ rest) = some ident :=
    searchAux_head_some hps
  have hext : extract_schema_table_name (strL "CREATE TABLE " ++ ident ++ rest) =
      some (strL "DEFAULT", ident) := by
    rw [extract_schema_table_name, hq, hss]
  refine ⟨hext, ?_⟩
  rw [outFileName, hext]
  simp only [Option.map_some']
  rfl

/-- Witness for `schema_default_when_unqualified` on Scenario 2's
statement `CREATE TABLE WIDGETS (...)`. -/
theorem schema_default_when_unqualified_witness :
    (strL "WIDGETS" ≠ [] ∧
     (∀ c ∈ strL "WIDGETS", isWordChar c = true) ∧
     isWordChar ((strL " (\nA INTEGER\n);").headD ' ') = false ∧
     searchQualified (strL "CREATE TABLE " ++ strL "WIDGETS" ++ strL " (\nA INTEGER\n);") = none) ∧
    outFileName (strL "CREATE TABLE " ++ strL "WIDGETS" ++ strL " (\nA INTEGER\n);") =
      some (strL "DEFAULT__" ++ strL "WIDGETS" ++ strL ".sql") :=
  ⟨⟨by decide, by decide, by decide, by decide⟩,
   (schema_default_when_unqualified (strL "WIDGETS") (strL " (\nA INTEGER\n);")
     (by decide) (by decide) (by decide) (by decide)).2⟩

/-! ### Segmentation of a single well-formed statement (C4) -/

/-- A newline-free text splits into itself. -/
theorem splitNl_no_nl {l : List Char} (h : '\n' ∉ l) : splitNl l = [l] := by
  induction l with
  | nil => rfl
  | cons c t ih =>
    have hc : ¬(c = '\n') := fun hc => h (by simp [hc])
    rw [splitNl, if_neg hc, ih (fun hm => h (by simp [hm]))]

/-- Splitting after a newline-free first line peels it off. -/
theorem splitNl_append_nl {l x : List Char} (h : '\n' ∉ l) :
    splitNl (l ++ '\n' :: x) = l :: splitNl x := by
  induction l with
  | nil => simp [splitNl]
  | cons c t ih =>
    have hc : ¬(c = '\n') := fun hc => h (by simp [hc])
    rw [List.cons_append, splitNl, if_neg hc, ih (fun hm => h (by simp [hm]))]

/-- Splitting inverts joining on nonempty lists of newline-free lines. -/
theorem splitNl_joinNl {ls : List (List Char)} (hnl : ∀ l ∈ ls, '\n' ∉ l)
    (hne : ls ≠ []) : splitNl (joinNl ls) = ls := by
  induction ls with
  | nil => exact absurd rfl hne
  | cons l rest ih =>
    cases rest with
    | nil => exact splitNl_no_nl (hnl l (by simp))
    | cons l2 rest2 =>
      rw [joinNl, splitNl_append_nl (hnl l (by simp))]
      rw [ih (fun x hx => hnl x (by simp [hx])) (by simp)]

/-- Blank lines contribute nothing to `nbs`. -/
theorem nbs_cons_blank {l : List Char} {bs : List (List Char)} (h : pyStrip l = []) :
    nbs (l :: bs) = nbs bs := by
  simp [nbs, h]

/-- Non-blank lines contribute their stripped text to `nbs`. -/
theorem nbs_cons_ne {l : List Char} {bs : List (List Char)} (h : pyStrip l ≠ []) :
    nbs (l :: bs) = pyStrip l :: nbs bs := by
  simp [nbs, h]

/-- An empty `nbs` means every line strips to blank. -/
theorem nbs_nil_all {bs : List (List Char)} (h : nbs bs = []) :
    ∀ l ∈ bs, pyStrip l = [] := by
  induction bs with
  | nil => simp
  | cons l rest ih =>
    intro x hx
    by_cases hl : pyStrip l = []
    · rcases List.mem_cons.mp hx with rfl | hx'
      · exact hl
      · exact ih (by rwa [nbs_cons_blank hl] at h) x hx'
    · rw [nbs_cons_ne hl] at h
      simp at h

/-- `nbs` distributes over a trailing singleton. -/
theorem nbs_concat (bs : List (List Char)) (l : List Char) :
    nbs (bs ++ [l]) = nbs bs ++ nbs [l] := by
  simp [nbs]

/-- Decomposition of a raw line list along the last non-blank line. -/
theorem nbs_decomp {bs ns' : List (List Char)} {n : List Char}
    (h : nbs bs = ns' ++ [n]) :
    ∃ bs₁ bl bs₂, bs = bs₁ ++ bl :: bs₂ ∧ nbs bs₁ = ns' ∧ pyStrip bl = n ∧
      ∀ l ∈ bs₂, pyStrip l = [] := by
  induction bs using List.reverseRecOn generalizing ns' n with
  | nil => simp [nbs] at h
  | append_singleton bs l ih =>
    rw [nbs_concat] at h
    by_cases hl : pyStrip l = []
    · rw [show nbs [l] = [] from by rw [nbs_cons_blank hl]; rfl, List.append_nil] at h
      rcases ih h with ⟨bs₁, bl, bs₂, hsplit, h1, h2, h3⟩
      refine ⟨bs₁, bl, bs₂ ++ [l], ?_, h1, h2, ?_⟩
      · rw [hsplit]
        simp
      · intro x hx
        rcases List.mem_append.mp hx with hx' | hx'
        · exact h3 x hx'
        · rw [List.mem_singleton] at hx'
          rw [hx']
          exact hl
    · rw [show nbs [l] = [pyStrip l] from by rw [nbs_cons_ne hl]; rfl] at h
      have hinj := List.append_inj' h (by simp)
      refine ⟨bs, l, [], by simp, hinj.1, ?_, by simp⟩
      have h2 := hinj.2
      injection h2

/-- Lines that do not open a statement are ignored while no statement is
open. -/
theorem foldl_idle :
    ∀ (ls : List (List Char)) (st : SegState),
      (∀ l ∈ ls, matchCreate (pyStrip l) = false) → st.inCT = false →
      ls.foldl stepLine st = st := by
  intro ls
  induction ls with
  | nil => intro st _ _; rfl
  | cons l rest ih =>
    intro st hm hin
    have hstep : stepLine st l = st := by
      by_cases hblank : pyStrip l = []
      · simp [stepLine, hblank]
      · simp [stepLine, hblank, hm l (by simp), hin]
    rw [List.foldl_cons, hstep]
    exact ih st (fun x hx => hm x (by simp [hx])) hin

/-- Blank lines are ignored in any state. -/
theorem foldl_blank :
    ∀ (ls : List (List Char)) (st : SegState),
      (∀ l ∈ ls, pyStrip l = []) → ls.foldl stepLine st = st := by
  intro ls
  induction ls with
  | nil => intro st _; rfl
  | cons l rest ih =>
    intro st hb
    have hstep : stepLine st l = st := by simp [stepLine, hb l (by simp)]
    rw [List.foldl_cons, hstep]
    exact ih st (fun x hx => hb x (by simp [hx]))

/-- While a statement is open and no line closes it or opens a new one,
the fold accumulates exactly the stripped non-blank lines and sums their
parenthesis balances. -/
theorem foldl_accum :
    ∀ (bs : List (List Char)) (S : List (List Char)) (cur : List (List Char)) (d : Int),
      (∀ l ∈ bs, matchCreate (pyStrip l) = false) →
      noCloseB d (nbs bs) = true →
      bs.foldl stepLine ⟨S, cur, d, true⟩ = ⟨S, cur ++ nbs bs, d + balSum (nbs bs), true⟩ := by
  intro bs
  induction bs with
  | nil =>
    intro S cur d _ _
    simp [nbs, balSum]
  | cons l rest ih =>
    intro S cur d hm hnc
    by_cases hblank : pyStrip l = []
    · have hstep : stepLine (⟨S, cur, d, true⟩ : SegState) l = ⟨S, cur, d, true⟩ := by
        simp [stepLine, hblank]
      rw [List.foldl_cons, hstep, nbs_cons_blank hblank]
      rw [nbs_cons_blank hblank] at hnc
      exact ih S cur d (fun x hx => hm x (by simp [hx])) hnc
    · have hn : nbs (l :: rest) = pyStrip l :: nbs rest := nbs_cons_ne hblank
      rw [hn] at hnc
      rw [noCloseB, Bool.and_eq_true] at hnc
      obtain ⟨hnc1, hnc2⟩ := hnc
      have hnoclose : ¬(d + parenBal (pyStrip l) ≤ 0 ∧ endsSemi (pyStrip l) = true) := by
        intro hcon
        rw [Bool.not_eq_true'] at hnc1
        rw [Bool.and_eq_false_iff] at hnc1
        rcases hnc1 with h1 | h1
        · rw [decide_eq_false_iff_not] at h1
          exact h1 hcon.1
        · rw [hcon.2] at h1
          simp at h1
      have hstep : stepLine (⟨S, cur, d, true⟩ : SegState) l =
          ⟨S, cur ++ [pyStrip l], d + parenBal (pyStrip l), true⟩ := by
        simp only [stepLine, if_neg hblank, if_neg (by rw [hm l (by simp)]; simp : ¬(matchCreate (pyStrip l) = true))]
        simp [hnoclose]
      rw [List.foldl_cons, hstep,
        ih S (cur ++ [pyStrip l]) (d + parenBal (pyStrip l))
          (fun x hx => hm x (by simp [hx])) hnc2]
      rw [hn]
      congr 1
      · simp
      · show d + parenBal (pyStrip l) + balSum (nbs rest) =
          d + balSum (pyStrip l :: nbs rest)
        simp only [balSum, List.map_cons, List.sum_cons]
        ring

/-- C4: on a well-formed input made of one `CREATE TABLE` statement —
first non-blank line matches the pattern, no other line does, no proper
prefix closes (depth `≤ 0` with a trailing `;`), the total parenthesis
balance is zero and the last line ends with `;` — segmentation emits
exactly one statement, and that statement is the join of the stripped
non-blank input lines (blank lines dropped, each line stripped). -/
theorem single_statement_roundtrip
    (pre body post : List (List Char)) (c : List Char)
    (hnl : ∀ l ∈ pre ++ c :: body ++ post, '\n' ∉ l)
    (hpre : ∀ l ∈ pre, matchCreate (pyStrip l) = false)
    (hc : matchCreate (pyStrip c) = true)
    (hbody : ∀ l ∈ body, matchCreate (pyStrip l) = false)
    (hpost : ∀ l ∈ post, pyStrip l = [])
    (hnoearly : noCloseB (parenBal (pyStrip c)) (nbs body).dropLast = true)
    (hbal : balSum (pyStrip c :: nbs body) = 0)
    (hsemi : endsSemi ((pyStrip c :: nbs body).getLastD []) = true) :
    extract_create_table_statements (joinNl (pre ++ c :: body ++ post)) =
      [joinNl (pyStrip c :: nbs body)] := by
  have hsplit : splitNl (joinNl (pre ++ c :: body ++ post)) = pre ++ c :: body ++ post :=
    splitNl_joinNl hnl (by simp)
  rw [extract_create_table_statements, hsplit]
  rw [List.foldl_append, List.foldl_append]
  rw [foldl_idle pre ⟨[], [], 0, false⟩ hpre rfl]
  rw [List.foldl_cons]
  have hcne : pyStrip c ≠ [] := by
    intro he
    rw [he] at hc
    exact absurd hc (by decide)
  have hstep1 : stepLine (⟨[], [], 0, false⟩ : SegState) c =
      ⟨[], [pyStrip c], parenBal (pyStrip c), true⟩ := by
    simp [stepLine, hcne, hc]
  rw [hstep1]
  rcases hns : nbs body with _ | ⟨nsh, nst⟩
  · have hbodyblank : ∀ l ∈ body, pyStrip l = [] := nbs_nil_all hns
    rw [foldl_blank body _ hbodyblank, foldl_blank post _ hpost]
    rw [if_pos ⟨by simp, rfl⟩]
    rfl
  · have hnsne : nbs body ≠ [] := by rw [hns]; simp
    have hdl : nbs body = (nbs body).dropLast ++ [(nbs body).getLast hnsne] :=
      (List.dropLast_append_getLast hnsne).symm
    rcases nbs_decomp hdl with ⟨bs₁, bl, bs₂, hbodysplit, h1, h2, h3⟩
    have hmem₁ : ∀ l ∈ bs₁, l ∈ body := by
      intro l hl
      rw [hbodysplit]
      simp [hl]
    have hblmem : bl ∈ body := by
      rw [hbodysplit]
      simp
    have hblne : pyStrip bl ≠ [] := by
      rw [h2]
      intro he
      have hmem : (nbs body).getLast hnsne ∈ nbs body := List.getLast_mem hnsne
      rw [he] at hmem
      rw [nbs] at hmem
      simp only [List.mem_filter] at hmem
      simp at hmem
    have hdep : parenBal (pyStrip c) + balSum ((nbs body).dropLast) + parenBal (pyStrip bl) = 0 := by
      have hexp : balSum (pyStrip c :: nbs body) =
          parenBal (pyStrip c) + (balSum ((nbs body).dropLast) + parenBal (pyStrip bl)) := by
        conv_lhs => rw [hdl]
        simp only [balSum, List.map_cons, List.sum_cons, List.map_append, List.sum_append,
          List.map_nil, List.sum_nil]
        rw [h2]
        ring
      rw [hexp] at hbal
      linarith
    have hlastsemi : endsSemi (pyStrip bl) = true := by
      rw [h2]
      have hgl : (pyStrip c :: nbs body).getLastD [] = (nbs body).getLast hnsne := by
        rw [List.getLastD_cons]
        conv_lhs => rw [hdl]
        rw [List.getLastD_concat]
      rwa [hgl] at hsemi
    have hstep2 : stepLine
        (⟨[], [pyStrip c] ++ (nbs body).dropLast,
          parenBal (pyStrip c) + balSum ((nbs body).dropLast), true⟩ : SegState) bl =
        ⟨[joinNl (([pyStrip c] ++ (nbs body).dropLast) ++ [pyStrip bl])], [], 0, false⟩ := by
      have hcond : parenBal (pyStrip c) + balSum ((nbs body).dropLast) + parenBal (pyStrip bl) ≤ 0 ∧
          endsSemi (pyStrip bl) = true := ⟨by rw [hdep], hlastsemi⟩
      simp only [stepLine, if_neg hblne, if_neg (by rw [hbody bl hblmem]; simp :
        ¬(matchCreate (pyStrip bl) = true))]
      rw [if_pos trivial, if_pos hcond]
      simp
    have hfold_body : body.foldl stepLine
        (⟨[], [pyStrip c], parenBal (pyStrip c), true⟩ : SegState) =
        ⟨[joinNl (([pyStrip c] ++ (nbs body).dropLast) ++ [pyStrip bl])], [], 0, false⟩ := by
      conv_lhs => rw [hbodysplit]
      rw [List.foldl_append, List.foldl_cons]
      rw [foldl_accum bs₁ _ _ _ (fun l hl => hbody l (hmem₁ l hl)) (by rw [h1]; exact hnoearly)]
      rw [show ([pyStrip c] : List (List Char)) ++ nbs bs₁ = [pyStrip c] ++ (nbs body).dropLast from by rw [h1]]
      rw [show parenBal (pyStrip c) + balSum (nbs bs₁) =
        parenBal (pyStrip c) + balSum ((nbs body).dropLast) from by rw [h1]]
      rw [hstep2]
      exact foldl_blank bs₂ _ h3
    rw [hfold_body, foldl_blank post _ hpost]
    rw [if_neg (by simp)]
    have hjoin : ([pyStrip c] ++ (nbs body).dropLast) ++ [pyStrip bl] =
        pyStrip c :: nbs body := by
      conv_rhs => rw [hdl]
      rw [h2]
      simp
    rw [hjoin]
    rw [hns]

/-- Witness for `single_statement_roundtrip` on a three-line statement:
segmentation emits exactly the join of its stripped lines. -/
theorem single_statement_roundtrip_witness :
    ((∀ l ∈ [] ++ c4Head :: c4Body ++ [], '\n' ∉ l) ∧
     matchCreate (pyStrip c4Head) = true ∧
     noCloseB (parenBal (pyStrip c4Head)) (nbs c4Body).dropLast = true ∧
     balSum (pyStrip c4Head :: nbs c4Body) = 0 ∧
     endsSemi ((pyStrip c4Head :: nbs c4Body).getLastD []) = true) ∧
    extract_create_table_statements (joinNl ([] ++ c4Head :: c4Body ++ [])) =
      [joinNl (pyStrip c4Head :: nbs c4Body)] :=
  ⟨⟨by decide, by decide, by decide, by decide, by decide⟩,
   single_statement_roundtrip [] c4Body [] c4Head (by decide) (by decide) (by decide)
     (by decide) (by decide) (by decide) (by decide) (by decide)⟩

/-! ### Idempotence of comment stripping on block-comment-free input (C3 amended) -/

/-- Block-comment removal is the identity on text without `/*`. -/
theorem removeBlockAux_id :
    ∀ (fuel : Nat) (s : List Char), hasSub s (strL "/*") = false →
      removeBlockAux fuel s = s := by
  intro fuel
  induction fuel with
  | zero => intro s _; rfl
  | succ fuel ih =>
    intro s h
    cases s with
    | nil => rfl
    | cons c rest =>
      have htail : hasSub rest (strL "/*") = false := by
        cases hr : hasSub rest (strL "/*")
        · rfl
        · rw [hasSub_cons_eq, hr, Bool.or_true] at h
          exact absurd h (by simp)
      have hcond : ¬(c = '/' ∧ rest.headD ' ' = '*') := by
        rintro ⟨rfl, hstar⟩
        cases rest with
        | nil => simp at hstar
        | cons c2 r2 =>
          rw [List.headD_cons] at hstar
          subst hstar
          rw [hasSub_cons_eq] at h
          have hpre : (strL "/*").isPrefixOf ('/' :: '*' :: r2) = true := by
            show (['/', '*'] : List Char).isPrefixOf ('/' :: '*' :: r2) = true
            simp [List.isPrefixOf]
          rw [hpre, Bool.true_or] at h
          exact absurd h (by simp)
      rw [removeBlockAux, if_neg hcond, ih rest htail]

/-- `removeBlock` is the identity on text without `/*`. -/
theorem removeBlock_id {s : List Char} (h : hasSub s (strL "/*") = false) :
    removeBlock s = s :=
  removeBlockAux_id s.length s h

/-- The line-comment pass yields a prefix of the line. -/
theorem cleanLine_pre (l : List Char) : cleanLine l <+: l := by
  rw [cleanLine]
  cases hf : findSub l (strL "--") with
  | none => exact List.prefix_refl l
  | some p => exact (pyRStrip_pre _).trans (List.take_prefix p l)

/-- The line-comment pass removes every `--`. -/
theorem cleanLine_no_dd (l : List Char) : hasSub (cleanLine l) (strL "--") = false := by
  rw [cleanLine]
  cases hf : findSub l (strL "--") with
  | none => simpa [hasSub] using hf
  | some p =>
    cases hb : hasSub (pyRStrip (l.take p)) (strL "--")
    · rfl
    · have h1 : hasSub (l.take p) (strL "--") = true :=
        hasSub_of_pre (pyRStrip_pre _) hb
      rw [not_hasSub_take_first hf (by decide)] at h1
      exact absurd h1 (by simp)

/-- The line-comment pass is idempotent on single lines. -/
theorem cleanLine_idem (l : List Char) : cleanLine (cleanLine l) = cleanLine l := by
  have h := cleanLine_no_dd l
  have hnone : findSub (cleanLine l) (strL "--") = none := by
    rw [hasSub] at h
    cases hf : findSub (cleanLine l) (strL "--")
    · rfl
    · rw [hf] at h
      simp at h
  conv_lhs => rw [cleanLine]
  rw [hnone]

/-- Splitting on newlines never yields the empty list. -/
theorem splitNl_ne_nil (s : List Char) : splitNl s ≠ [] := by
  cases s with
  | nil => simp [splitNl]
  | cons c rest =>
    rw [splitNl]
    split
    · simp
    · cases h : splitNl rest with
      | nil => simp
      | cons l ls => simp

/-- Lines produced by splitting contain no newline. -/
theorem mem_splitNl_no_nl : ∀ (s : List Char), ∀ l ∈ splitNl s, '\n' ∉ l := by
  intro s
  induction s with
  | nil =>
    intro l hl
    rw [show splitNl [] = [[]] from rfl, List.mem_singleton] at hl
    rw [hl]
    simp
  | cons c rest ih =>
    intro l hl
    rw [splitNl] at hl
    by_cases hc : c = '\n'
    · rw [if_pos hc, List.mem_cons] at hl
      rcases hl with rfl | hl
      · simp
      · exact ih l hl
    · rw [if_neg hc] at hl
      cases hsp : splitNl rest with
      | nil => exact absurd hsp (splitNl_ne_nil rest)
      | cons h t =>
        rw [hsp] at hl
        rw [List.mem_cons] at hl
        rcases hl with rfl | hl
        · intro hmem
          rcases List.mem_cons.mp hmem with h' | h'
          · exact hc h'.symm
          · exact ih h (by rw [hsp]; simp) h'
        · exact ih l (by rw [hsp]; simp [hl])

/-- Joining inverts splitting. -/
theorem joinNl_splitNl : ∀ (s : List Char), joinNl (splitNl s) = s := by
  intro s
  induction s with
  | nil => rfl
  | cons c rest ih =>
    rw [splitNl]
    by_cases hc : c = '\n'
    · rw [if_pos hc]
      cases hsp : splitNl rest with
      | nil => exact absurd hsp (splitNl_ne_nil rest)
      | cons h t =>
        rw [joinNl, hc]
        rw [hsp] at ih
        rw [ih]
        rfl
    · rw [if_neg hc]
      cases hsp : splitNl rest with
      | nil => exact absurd hsp (splitNl_ne_nil rest)
      | cons h t =>
        rw [hsp] at ih
        cases t with
        | nil =>
          rw [joinNl]
          rw [joinNl] at ih
          rw [ih]
        | cons t1 ts =>
          rw [joinNl]
          rw [joinNl] at ih
          rw [List.cons_append, ih]

/-- A newline-free prefix lifted through cons. -/
theorem cons_pre_cons {p : Char} {ps : List Char} {q : Char} {x : List Char}
    (h : (p :: ps) <+: (q :: x)) : p = q ∧ ps <+: x := by
  rcases h with ⟨r, hr⟩
  injection hr with h1 h2
  exact ⟨h1, ⟨r, h2⟩⟩

/-- A newline-free pattern that prefixes text followed by a newline
block prefixes the text itself. -/
theorem pre_of_append_nl {pat x y : List Char} (hnl : '\n' ∉ pat)
    (h : pat <+: (x ++ '\n' :: y)) : pat <+: x := by
  induction pat generalizing x with
  | nil => exact List.nil_prefix
  | cons p ps ih =>
    cases x with
    | nil =>
      rcases cons_pre_cons (by simpa using h) with ⟨rfl, _⟩
      exact absurd (by simp) hnl
    | cons q x' =>
      rcases cons_pre_cons (by simpa using h) with ⟨rfl, htail⟩
      have := ih (fun hm => hnl (by simp [hm])) htail
      exact List.cons_prefix_cons.mpr ⟨rfl, this⟩

/-- An occurrence of a newline-free pattern in `x ++ '\n' :: y` lies in
`x` or in `y`. -/
theorem hasSub_append_nl_split {x y pat : List Char} (hnl : '\n' ∉ pat) (hne : pat ≠ [])
    (h : hasSub (x ++ '\n' :: y) pat = true) :
    hasSub x pat = true ∨ hasSub y pat = true := by
  induction x with
  | nil =>
    rw [List.nil_append, hasSub_cons_eq] at h
    rcases Bool.or_eq_true _ _ |>.mp h with h1 | h1
    · obtain ⟨p, ps, rfl⟩ := List.exists_cons_of_ne_nil hne
      rcases cons_pre_cons (isPre_iff.mp h1) with ⟨rfl, _⟩
      exact absurd (by simp) hnl
    · exact Or.inr h1
  | cons c x' ih =>
    rw [List.cons_append, hasSub_cons_eq] at h
    rcases Bool.or_eq_true _ _ |>.mp h with h1 | h1
    · have h1' : pat <+: ((c :: x') ++ '\n' :: y) := by
        rw [List.cons_append]
        exact isPre_iff.mp h1
      have hx : pat <+: (c :: x') := pre_of_append_nl hnl h1'
      exact Or.inl (hasSub_iff_occ.mpr ⟨0, by simpa using hx⟩)
    · rcases ih h1 with h2 | h2
      · exact Or.inl (hasSub_cons_of h2)
      · exact Or.inr h2

/-- An occurrence of a newline-free pattern in a join lies in one of the
joined lines. -/
theorem hasSub_joinNl_mem {ls : List (List Char)} {pat : List Char}
    (hnl : '\n' ∉ pat) (hne : pat ≠ [])
    (h : hasSub (joinNl ls) pat = true) : ∃ l ∈ ls, hasSub l pat = true := by
  induction ls with
  | nil =>
    rw [show joinNl [] = [] from rfl] at h
    exact absurd (hasSub_nil.mp h) hne
  | cons l rest ih =>
    cases rest with
    | nil => exact ⟨l, by simp, h⟩
    | cons l2 rest2 =>
      rw [joinNl] at h
      rcases hasSub_append_nl_split hnl hne h with h1 | h1
      · exact ⟨l, by simp, h1⟩
      · rcases ih h1 with ⟨x, hx, hhx⟩
        exact ⟨x, by simp [hx], hhx⟩

/-- A pattern occurring in a member line occurs in the join. -/
theorem hasSub_joinNl_of_mem {ls : List (List Char)} {pat l : List Char}
    (hl : l ∈ ls) (h : hasSub l pat = true) : hasSub (joinNl ls) pat = true := by
  induction ls with
  | nil => simp at hl
  | cons x rest ih =>
    cases rest with
    | nil =>
      rw [List.mem_singleton] at hl
      rw [show joinNl [x] = x from rfl, ← hl]
      exact h
    | cons x2 rest2 =>
      rw [joinNl]
      rcases List.mem_cons.mp hl with rfl | hl'
      · exact hasSub_append_left h
      · exact hasSub_append_right (hasSub_cons_of (ih hl'))

/-- C3 amended: comment stripping is idempotent on every input without a
block-comment opener `/*` (the counterexample shows idempotence fails in
general, because removing a block comment can splice together a new
one). -/
theorem strip_comments_idempotent_no_block (s : List Char)
    (h : hasSub s (strL "/*") = false) :
    strip_comments (strip_comments s) = strip_comments s := by
  have hrb : removeBlock s = s := removeBlock_id h
  have hpass1 : strip_comments s = joinNl ((splitNl s).map cleanLine) := by
    rw [strip_comments, hrb]
  have hout : hasSub (joinNl ((splitNl s).map cleanLine)) (strL "/*") = false := by
    cases hcase : hasSub (joinNl ((splitNl s).map cleanLine)) (strL "/*")
    · rfl
    · exfalso
      rcases hasSub_joinNl_mem (by decide) (by decide) hcase with ⟨l, hl, hhl⟩
      rcases List.mem_map.mp hl with ⟨l0, hl0, rfl⟩
      have h2 : hasSub l0 (strL "/*") = true := hasSub_of_pre (cleanLine_pre l0) hhl
      have h3 : hasSub (joinNl (splitNl s)) (strL "/*") = true := hasSub_joinNl_of_mem hl0 h2
      rw [joinNl_splitNl s] at h3
      rw [h3] at h
      exact absurd h (by simp)
  rw [hpass1, strip_comments, removeBlock_id hout]
  have hrt : splitNl (joinNl ((splitNl s).map cleanLine)) = (splitNl s).map cleanLine := by
    apply splitNl_joinNl
    · intro l hl
      rcases List.mem_map.mp hl with ⟨l0, hl0, rfl⟩
      intro hmem
      exact mem_splitNl_no_nl s l0 hl0 ((cleanLine_pre l0).subset hmem)
    · intro hmap
      rw [List.map_eq_nil_iff] at hmap
      exact splitNl_ne_nil s hmap
  rw [hrt, List.map_map]
  congr 1
  exact List.map_congr_left (fun x _ => cleanLine_idem x)

/-- Witness for `strip_comments_idempotent_no_block` on a two-line text
with line comments and no block comment. -/
theorem strip_comments_idempotent_no_block_witness :
    hasSub (strL "A 1 -- note\n-- gone\nB 2") (strL "/*") = false ∧
    strip_comments (strip_comments (strL "A 1 -- note\n-- gone\nB 2")) =
      strip_comments (strL "A 1 -- note\n-- gone\nB 2") :=
  ⟨by decide, strip_comments_idempotent_no_block (strL "A 1 -- note\n-- gone\nB 2") (by decide)⟩
